import Mathlib

/-!
Verification of the disjunctive detectable-precedences propagator
(`src/pumpkin-solver/src/propagators/disjunctive/`): a shallow embedding of
`TaskDisj`, `UnionFind`, `Timeline`, `RevTimeline`, and the propagator's
`propagate` / `propagate_upper_bound` / `debug_propagate_from_scratch`,
together with theorems settling the specification's claims about them.

Conventions of the embedding: Rust `i32` values are modelled as `Int`
(no arithmetic here approaches the `i32` range), vector indices as `Nat`,
and every Rust operation that can panic (indexing out of bounds,
`unwrap` on an empty iterator, unbounded recursion/loops) is modelled by
an `Option`-returning function where `none` marks the panic. The solver's
variable store, which lives outside the extracted sources, is modelled as
per-task integer bound pairs; each task's start variable is identified
with its dense `local_id`, exactly as the propagator's constructor
assigns them.
-/

namespace Pumpkin

/-- The bounds snapshot owned by the solver: lower and upper bound of each
start variable, keyed by the task's `local_id`. -/
structure Assignments where
  lb : Nat → Int
  ub : Nat → Int

/-- `TaskDisj` from `utils/task.rs`, as the propagator's constructor builds
it: a fixed duration and a dense `local_id` (the start variable is
identified with the `local_id`). -/
structure TaskDisj where
  duration : Int
  localId : Nat
deriving DecidableEq, Repr

/-- `TaskDisj::get_est`: lower bound of the start variable. -/
def TaskDisj.get_est (t : TaskDisj) (a : Assignments) : Int := a.lb t.localId

/-- `TaskDisj::get_lst`: upper bound of the start variable. -/
def TaskDisj.get_lst (t : TaskDisj) (a : Assignments) : Int := a.ub t.localId

/-- `TaskDisj::get_ect`: lower bound plus duration. -/
def TaskDisj.get_ect (t : TaskDisj) (a : Assignments) : Int :=
  a.lb t.localId + t.duration

/-- `TaskDisj::get_lct`: upper bound plus duration. -/
def TaskDisj.get_lct (t : TaskDisj) (a : Assignments) : Int :=
  a.ub t.localId + t.duration

/-- `ArgTaskDisj`: the user-facing task description handed to
`DetectablePrecedencesPropagator::new` (start variable plus duration; the
variable is identified with the position in the argument list). -/
structure ArgTaskDisj where
  duration : Int

/-- `DetectablePrecedencesPropagator::new`: assigns dense `local_id`s in
input order. -/
def mkTasks (args : List ArgTaskDisj) : List TaskDisj :=
  args.enum.map fun p => ⟨p.2.duration, p.1⟩

/-- `UnionFind` from `utils/union_find.rs`. -/
structure UnionFind where
  parent : List Nat
  n : Nat
deriving DecidableEq, Repr

/-- `UnionFind::new(n)`: `n` singletons. -/
def UnionFind.new (n : Nat) : UnionFind := ⟨List.range n, n⟩

/-- `UnionFind::find` with path compression. The Rust recursion has no
bound; the fuel models it, with `none` marking a panic (out-of-range
index) or non-termination. -/
def UnionFind.findAux : Nat → UnionFind → Nat → Option (Nat × UnionFind)
  | 0, _, _ => none
  | fuel + 1, uf, x =>
    match uf.parent.get? x with
    | none => none
    | some p =>
      if p = x then some (x, uf)
      else
        match UnionFind.findAux fuel uf p with
        | none => none
        | some (r, uf2) => some (r, ⟨uf2.parent.set x r, uf2.n⟩)

/-- `UnionFind::find`, with enough fuel for any acyclic parent structure. -/
def UnionFind.find (uf : UnionFind) (x : Nat) : Option (Nat × UnionFind) :=
  UnionFind.findAux (uf.parent.length + 1) uf x

/-- `UnionFind::union`: `parent[find(x)] ← find(y)`. -/
def UnionFind.union (uf : UnionFind) (x y : Nat) : Option (Bool × UnionFind) :=
  match uf.find x with
  | none => none
  | some (rx, uf1) =>
    match uf1.find y with
    | none => none
    | some (ry, uf2) =>
      if rx = ry then some (false, uf2)
      else some (true, ⟨uf2.parent.set rx ry, uf2.n⟩)

/-- Stable ascending sort by an integer key, modelling Rust's stable
`sort_by(|a, b| key(a).cmp(&key(b)))`. -/
def sortAscBy (key : TaskDisj → Int) (l : List TaskDisj) : List TaskDisj :=
  List.insertionSort (fun x y => key x ≤ key y) l

/-- Stable descending sort by an integer key, modelling Rust's stable
`sort_by(|a, b| key(b).cmp(&key(a)))`. -/
def sortDescBy (key : TaskDisj → Int) (l : List TaskDisj) : List TaskDisj :=
  List.insertionSort (fun x y => key y ≤ key x) l

/-- The loop of `Timeline::new` (and of `RevTimeline::new`) that collects
the distinct key values of the sorted task list into `t` and records each
task's slice index in `m`. -/
def buildTM (key : TaskDisj → Int) : List TaskDisj → List Int → List Nat →
    List Int × List Nat
  | [], t, m => (t, m)
  | task :: rest, t, m =>
    let v := key task
    let t' := if t.getLast? = some v then t else t ++ [v]
    let m' := m.set task.localId (t'.length - 1)
    buildTM key rest t' m'

/-- `Timeline` from `utils/timeline.rs`. -/
structure Timeline where
  t : List Int
  c : List Int
  m : List Nat
  e : Int
  s : UnionFind
deriving DecidableEq, Repr

/-- `Timeline::new`: distinct ESTs ascending, a sentinel
`max(LCT) + Σ duration`, capacities `c[k] = t[k+1] − t[k]`, envelope `−1`,
fresh union-find. `none` models the `unwrap` panic on an empty task list. -/
def Timeline.new (tasks : List TaskDisj) (a : Assignments) : Option Timeline :=
  let tasks_est := sortAscBy (fun tk => tk.get_est a) tasks
  let tm := buildTM (fun tk => tk.get_est a) tasks_est [] (List.replicate tasks.length 0)
  match (tasks.map fun tk => tk.get_lct a).max? with
  | none => none
  | some highest_lct =>
    let t := tm.1 ++ [highest_lct + (tasks.map fun tk => tk.duration).sum]
    let c := List.zipWith (fun x y => y - x) t t.tail
    some ⟨t, c, tm.2, -1, UnionFind.new t.length⟩

/-- The pouring loop shared verbatim by `Timeline::schedule_task` and
`RevTimeline::schedule_task`: `δ = min(c[k], ρ)`, consume, merge an
emptied slice into its successor, advance `k` to the slice's root. The
fuel models the unbounded `while`; `none` marks a panic or
non-termination. -/
def scheduleLoop : Nat → Int → Nat → List Int → UnionFind →
    Option (Nat × List Int × UnionFind)
  | 0, _, _, _, _ => none
  | fuel + 1, rho, k, c, s =>
    if rho > 0 then
      match c.get? k with
      | none => none
      | some ck =>
        let delta := min ck rho
        let c' := c.set k (ck - delta)
        if ck - delta = 0 then
          match s.union k (k + 1) with
          | none => none
          | some (_, s1) =>
            match s1.find k with
            | none => none
            | some (k', s2) => scheduleLoop fuel (rho - delta) k' c' s2
        else scheduleLoop fuel (rho - delta) k c' s
    else some (k, c, s)

/-- `Timeline::schedule_task`. -/
def Timeline.schedule_task (tl : Timeline) (task : TaskDisj) : Option Timeline :=
  match tl.m.get? task.localId with
  | none => none
  | some mi =>
    match tl.s.find mi with
    | none => none
    | some (k0, s0) =>
      match scheduleLoop (task.duration.toNat + tl.c.length + 1) task.duration k0 tl.c s0 with
      | none => none
      | some (k, c, s) => some ⟨tl.t, c, tl.m, max tl.e (k : Int), s⟩

/-- `Timeline::earliest_completion_time`: `0` when the envelope is empty,
else `t[e+1] − c[e]`. -/
def Timeline.earliest_completion_time (tl : Timeline) : Option Int :=
  if tl.e = -1 then some 0
  else
    match tl.t.get? (tl.e + 1).toNat, tl.c.get? tl.e.toNat with
    | some tv, some cv => some (tv - cv)
    | _, _ => none

/-- `RevTimeline` from `utils/timeline.rs`. -/
structure RevTimeline where
  t : List Int
  c : List Int
  m : List Nat
  e : Int
  s : UnionFind
deriving DecidableEq, Repr

/-- `RevTimeline::new`: distinct LCTs descending, a sentinel
`min(EST) − Σ duration`, capacities `c[k] = t[k] − t[k+1]`. -/
def RevTimeline.new (tasks : List TaskDisj) (a : Assignments) : Option RevTimeline :=
  let tasks_lct := sortDescBy (fun tk => tk.get_lct a) tasks
  let tm := buildTM (fun tk => tk.get_lct a) tasks_lct [] (List.replicate tasks.length 0)
  match (tasks.map fun tk => tk.get_est a).min? with
  | none => none
  | some lowest_est =>
    let t := tm.1 ++ [lowest_est - (tasks.map fun tk => tk.duration).sum]
    let c := List.zipWith (fun x y => x - y) t t.tail
    some ⟨t, c, tm.2, -1, UnionFind.new t.length⟩

/-- `RevTimeline::schedule_task` (same loop as the forward one). -/
def RevTimeline.schedule_task (tl : RevTimeline) (task : TaskDisj) : Option RevTimeline :=
  match tl.m.get? task.localId with
  | none => none
  | some mi =>
    match tl.s.find mi with
    | none => none
    | some (k0, s0) =>
      match scheduleLoop (task.duration.toNat + tl.c.length + 1) task.duration k0 tl.c s0 with
      | none => none
      | some (k, c, s) => some ⟨tl.t, c, tl.m, max tl.e (k : Int), s⟩

/-- `RevTimeline::latest_starting_time`: `t[0]` when the envelope is
empty, else `t[e+1] + c[e]`. -/
def RevTimeline.latest_starting_time (tl : RevTimeline) : Option Int :=
  if tl.e = -1 then tl.t.get? 0
  else
    match tl.t.get? (tl.e + 1).toNat, tl.c.get? tl.e.toNat with
    | some tv, some cv => some (tv + cv)
    | _, _ => none

/-- Result of a sweep: an immediate `Conflict`, or the completed sweep
state. -/
inductive StepRes (σ : Type) where
  | conflict : StepRes σ
  | ok : σ → StepRes σ

/-- The `propagations` insertion of the forward sweep: record `v` for
`id` if absent or strictly greater than the stored bound. -/
def insertStricterLB (props : Nat → Option Int) (id : Nat) (v : Int) :
    Nat → Option Int :=
  match props id with
  | none => fun i => if i = id then some v else props i
  | some old =>
    if v > old then (fun i => if i = id then some v else props i) else props

/-- The `propagations` insertion of the reverse sweep: record `v` for
`id` if absent or strictly smaller than the stored bound. -/
def insertStricterUB (props : Nat → Option Int) (id : Nat) (v : Int) :
    Nat → Option Int :=
  match props id with
  | none => fun i => if i = id then some v else props i
  | some old =>
    if v < old then (fun i => if i = id then some v else props i) else props

/-- Mutable state of the forward sweep in `propagate`: cursor `j` into the
LST-ascending order, the task `k` at the cursor, the optional blocking
task, the postponed tasks, the recorded pushes and the timeline. -/
structure FSweepState where
  j : Nat
  k : TaskDisj
  blocking : Option TaskDisj
  postponed : List TaskDisj
  props : Nat → Option Int
  tl : Timeline

/-- The inner `while` of the forward sweep of `propagate`: while
`j < |i_lst| − 1` and `LST(k) < ECT(i)`, schedule `k` when
`LST(k) ≥ ECT(k)`, otherwise make it blocking (conflict when a blocking
task already exists), then advance the cursor. -/
def fwdInner (a : Assignments) (i_lst : List TaskDisj) (ect_i : Int) :
    Nat → FSweepState → Option (StepRes FSweepState)
  | 0, _ => none
  | fuel + 1, st =>
    if st.j + 1 < i_lst.length ∧ st.k.get_lst a < ect_i then
      match i_lst.get? (st.j + 1) with
      | none => none
      | some k' =>
        if st.k.get_lst a ≥ st.k.get_ect a then
          match st.tl.schedule_task st.k with
          | none => none
          | some tl' =>
            fwdInner a i_lst ect_i fuel { st with j := st.j + 1, k := k', tl := tl' }
        else
          match st.blocking with
          | some _ => some .conflict
          | none =>
            fwdInner a i_lst ect_i fuel
              { st with j := st.j + 1, k := k', blocking := some st.k }
    else some (.ok st)

/-- The outer `for` of the forward sweep of `propagate`, iterating tasks
in ECT-ascending order. -/
def fwdOuter (a : Assignments) (i_lst : List TaskDisj) :
    List TaskDisj → FSweepState → Option (StepRes FSweepState)
  | [], st => some (.ok st)
  | i :: rest, st =>
    match fwdInner a i_lst (i.get_ect a) (i_lst.length + 1) st with
    | none => none
    | some .conflict => some .conflict
    | some (.ok st1) =>
      match st1.blocking with
      | none =>
        match st1.tl.earliest_completion_time with
        | none => none
        | some v =>
          fwdOuter a i_lst rest { st1 with props := insertStricterLB st1.props i.localId v }
      | some x =>
        if i.localId = x.localId then
          match st1.tl.earliest_completion_time with
          | none => none
          | some v =>
            let props1 := insertStricterLB st1.props i.localId v
            match st1.tl.schedule_task i with
            | none => none
            | some tl2 =>
              match tl2.earliest_completion_time with
              | none => none
              | some v2 =>
                let props2 :=
                  st1.postponed.foldl (fun p z => insertStricterLB p z.localId v2) props1
                fwdOuter a i_lst rest
                  { st1 with blocking := none, postponed := [], props := props2, tl := tl2 }
        else fwdOuter a i_lst rest { st1 with postponed := st1.postponed ++ [i] }

/-- The forward (lower-bound) sweep of `propagate`: build the Timeline,
the two sorted orders, and run the loop from `k = i_lst[0]` (`none`
models the panic of indexing an empty ordering). -/
def forwardSweep (tasks : List TaskDisj) (a : Assignments) :
    Option (StepRes FSweepState) :=
  match Timeline.new tasks a with
  | none => none
  | some tl =>
    let i_lst := sortAscBy (fun tk => tk.get_lst a) tasks
    let i_ect := sortAscBy (fun tk => tk.get_ect a) tasks
    match i_lst.get? 0 with
    | none => none
    | some k0 => fwdOuter a i_lst i_ect ⟨0, k0, none, [], fun _ => none, tl⟩

/-- Mutable state of the reverse sweep in `propagate_upper_bound`. -/
structure RSweepState where
  j : Nat
  k : TaskDisj
  blocking : Option TaskDisj
  postponed : List TaskDisj
  props : Nat → Option Int
  tl : RevTimeline

/-- The inner `while` of the reverse sweep (`propagate_upper_bound`):
while `j < |i_lst| − 1` and `ECT(k) > LST(i)`, with the cursor running
over the ECT-descending order. -/
def revInner (a : Assignments) (i_lstLen : Nat) (i_ect : List TaskDisj) (lst_i : Int) :
    Nat → RSweepState → Option (StepRes RSweepState)
  | 0, _ => none
  | fuel + 1, st =>
    if st.j + 1 < i_lstLen ∧ st.k.get_ect a > lst_i then
      match i_ect.get? (st.j + 1) with
      | none => none
      | some k' =>
        if st.k.get_lst a ≥ st.k.get_ect a then
          match st.tl.schedule_task st.k with
          | none => none
          | some tl' =>
            revInner a i_lstLen i_ect lst_i fuel { st with j := st.j + 1, k := k', tl := tl' }
        else
          match st.blocking with
          | some _ => some .conflict
          | none =>
            revInner a i_lstLen i_ect lst_i fuel
              { st with j := st.j + 1, k := k', blocking := some st.k }
    else some (.ok st)

/-- The outer `for` of the reverse sweep, iterating tasks in
LST-descending order; the push recorded for a task is
`latest_starting_time − duration`. -/
def revOuter (a : Assignments) (i_lstLen : Nat) (i_ect : List TaskDisj) :
    List TaskDisj → RSweepState → Option (StepRes RSweepState)
  | [], st => some (.ok st)
  | i :: rest, st =>
    match revInner a i_lstLen i_ect (i.get_lst a) (i_lstLen + 1) st with
    | none => none
    | some .conflict => some .conflict
    | some (.ok st1) =>
      match st1.blocking with
      | none =>
        match st1.tl.latest_starting_time with
        | none => none
        | some v =>
          revOuter a i_lstLen i_ect rest
            { st1 with props := insertStricterUB st1.props i.localId (v - i.duration) }
      | some x =>
        if i.localId = x.localId then
          match st1.tl.latest_starting_time with
          | none => none
          | some v =>
            let props1 := insertStricterUB st1.props i.localId (v - i.duration)
            match st1.tl.schedule_task i with
            | none => none
            | some tl2 =>
              match tl2.latest_starting_time with
              | none => none
              | some v2 =>
                let props2 :=
                  st1.postponed.foldl
                    (fun p z => insertStricterUB p z.localId (v2 - z.duration)) props1
                revOuter a i_lstLen i_ect rest
                  { st1 with blocking := none, postponed := [], props := props2, tl := tl2 }
        else revOuter a i_lstLen i_ect rest { st1 with postponed := st1.postponed ++ [i] }

/-- The reverse (upper-bound) sweep of `propagate_upper_bound`: build the
RevTimeline and the two descending orders, run the loop from
`k = i_ect[0]`. -/
def reverseSweep (tasks : List TaskDisj) (a : Assignments) :
    Option (StepRes RSweepState) :=
  match RevTimeline.new tasks a with
  | none => none
  | some tl =>
    let i_lst := sortDescBy (fun tk => tk.get_lst a) tasks
    let i_ect := sortDescBy (fun tk => tk.get_ect a) tasks
    match i_ect.get? 0 with
    | none => none
    | some k0 => revOuter a i_lst.length i_ect i_lst ⟨0, k0, none, [], fun _ => none, tl⟩

/-- Modelled from the spec: the solver's `set_lower_bound` bound-update
primitive (the domain store lives outside the extracted sources). The
update is rejected — reported as inconsistency, with the domain left as
it was — exactly when it would empty the domain, i.e. when the new lower
bound exceeds the current upper bound. -/
def setLowerBound (a : Assignments) (i : Nat) (v : Int) : Option Assignments :=
  if v ≤ a.ub i then
    some ⟨fun j => if j = i then v else a.lb j, a.ub⟩
  else none

/-- Modelled from the spec: the solver's `set_upper_bound` primitive,
rejected exactly when the new upper bound drops below the current lower
bound. -/
def setUpperBound (a : Assignments) (i : Nat) (v : Int) : Option Assignments :=
  if v ≥ a.lb i then
    some ⟨a.lb, fun j => if j = i then v else a.ub j⟩
  else none

/-- Outcome of an apply phase: whether a bound update was rejected
(conflict), the resulting assignments, and the `set_*_bound` calls made
(pairs of variable id and value). -/
structure ApplyOut where
  conflicted : Bool
  a : Assignments
  calls : List (Nat × Int)

/-- The push-application loop at the end of `propagate`: for each
recorded push, skip it unless it strictly exceeds the snapshot lower
bound, else call `set_lower_bound`; a rejection aborts with a conflict.
The iteration is over ids in increasing order (the Rust `HashMap`
iteration order is unspecified). `none` models the panic of indexing
`tasks` out of range. -/
def applyLower (tasks : List TaskDisj) (aSnap : Assignments)
    (props : Nat → Option Int) : List Nat → Assignments → List (Nat × Int) →
    Option ApplyOut
  | [], a, calls => some ⟨false, a, calls⟩
  | id :: rest, a, calls =>
    match props id with
    | none => applyLower tasks aSnap props rest a calls
    | some v =>
      match tasks.get? id with
      | none => none
      | some task =>
        if v ≤ task.get_est aSnap then applyLower tasks aSnap props rest a calls
        else
          match setLowerBound a task.localId v with
          | none => some ⟨true, a, calls ++ [(task.localId, v)]⟩
          | some a' => applyLower tasks aSnap props rest a' (calls ++ [(task.localId, v)])

/-- The push-application loop at the end of `propagate_upper_bound`:
skip a push unless it is strictly below the snapshot upper bound, else
call `set_upper_bound`. -/
def applyUpper (tasks : List TaskDisj) (aSnap : Assignments)
    (props : Nat → Option Int) : List Nat → Assignments → List (Nat × Int) →
    Option ApplyOut
  | [], a, calls => some ⟨false, a, calls⟩
  | id :: rest, a, calls =>
    match props id with
    | none => applyUpper tasks aSnap props rest a calls
    | some v =>
      match tasks.get? id with
      | none => none
      | some task =>
        if v ≥ task.get_lst aSnap then applyUpper tasks aSnap props rest a calls
        else
          match setUpperBound a task.localId v with
          | none => some ⟨true, a, calls ++ [(task.localId, v)]⟩
          | some a' => applyUpper tasks aSnap props rest a' (calls ++ [(task.localId, v)])

/-- Outcome of a full `propagate` call: whether it returned `Conflict`,
the assignments when it returned, and the bound-update calls it made. -/
structure PropagateOut where
  conflict : Bool
  a : Assignments
  callsL : List (Nat × Int)
  callsU : List (Nat × Int)

/-- `Propagator::propagate` of the detectable-precedences propagator: the
forward sweep over the entry snapshot, application of the lower-bound
pushes, then `propagate_upper_bound`, which re-reads the (now updated)
assignments, runs the reverse sweep, and applies the upper-bound pushes.
A `Conflict` from a sweep returns immediately with the assignments as
they are at that point. -/
def propagateF (tasks : List TaskDisj) (a0 : Assignments) : Option PropagateOut :=
  match forwardSweep tasks a0 with
  | none => none
  | some .conflict => some ⟨true, a0, [], []⟩
  | some (.ok st) =>
    match applyLower tasks a0 st.props (List.range tasks.length) a0 [] with
    | none => none
    | some outL =>
      if outL.conflicted then some ⟨true, outL.a, outL.calls, []⟩
      else
        match reverseSweep tasks outL.a with
        | none => none
        | some .conflict => some ⟨true, outL.a, outL.calls, []⟩
        | some (.ok stU) =>
          match applyUpper tasks outL.a stU.props (List.range tasks.length) outL.a [] with
          | none => none
          | some outU =>
            some ⟨outU.conflicted, outU.a, outL.calls, outU.calls⟩

/-- `debug_propagate_from_scratch`: report a conflict exactly when some
task has `ECT > LCT` (the Rust loop returns the first such violation). -/
def debug_propagate_from_scratch (tasks : List TaskDisj) (a : Assignments) : Bool :=
  tasks.any fun task => task.get_ect a > task.get_lct a

/-- Projection: did `propagate` return `Conflict`? -/
def conflictOf (r : Option PropagateOut) : Option Bool := r.map (·.conflict)

/-- Projection: lower bound of variable `i` when `propagate` returned. -/
def lbOf (r : Option PropagateOut) (i : Nat) : Option Int := r.map fun o => o.a.lb i

/-- Projection: upper bound of variable `i` when `propagate` returned. -/
def ubOf (r : Option PropagateOut) (i : Nat) : Option Int := r.map fun o => o.a.ub i

/-- Projection: the `set_lower_bound` calls made by `propagate`. -/
def callsLOf (r : Option PropagateOut) : Option (List (Nat × Int)) := r.map (·.callsL)

/-- Projection: the `set_upper_bound` calls made by `propagate`. -/
def callsUOf (r : Option PropagateOut) : Option (List (Nat × Int)) := r.map (·.callsU)

/-- Projection: did a sweep return `Conflict`? -/
def sweepConflictOf {σ : Type} (r : Option (StepRes σ)) : Option Bool :=
  r.map fun s => match s with | .conflict => true | .ok _ => false

/-- Projection: the envelope index of the Timeline at the end of a
successful forward sweep. -/
def fwdEOf (r : Option (StepRes FSweepState)) : Option Int :=
  r.bind fun s => match s with | .ok st => some st.tl.e | .conflict => none

/-- Projection: the push recorded for `i` by a successful forward
sweep. -/
def fwdPropsOf (r : Option (StepRes FSweepState)) (i : Nat) : Option (Option Int) :=
  r.bind fun s => match s with | .ok st => some (st.props i) | .conflict => none

/-- Modelled from the spec's words, for the refinement claim about the
sweep ordering: bound reads of BOTH sweeps are taken from the coherent
snapshot captured at entry to the call, and the pushes of both sweeps are
applied to the solver only after both sweeps have completed. To be
compared with `propagateF`, which follows the source. -/
def propagateSpecOrdered (tasks : List TaskDisj) (a0 : Assignments) :
    Option PropagateOut :=
  match forwardSweep tasks a0 with
  | none => none
  | some .conflict => some ⟨true, a0, [], []⟩
  | some (.ok st) =>
    match reverseSweep tasks a0 with
    | none => none
    | some .conflict => some ⟨true, a0, [], []⟩
    | some (.ok stU) =>
      match applyLower tasks a0 st.props (List.range tasks.length) a0 [] with
      | none => none
      | some outL =>
        if outL.conflicted then some ⟨true, outL.a, outL.calls, []⟩
        else
          match applyUpper tasks a0 stU.props (List.range tasks.length) outL.a [] with
          | none => none
          | some outU => some ⟨outU.conflicted, outU.a, outL.calls, outU.calls⟩

/-- Duration of the task whose `local_id` is `i` (0 when absent; with the
dense ids produced by the propagator's constructor, `i` is the position). -/
def durOf (tasks : List TaskDisj) (i : Nat) : Int :=
  ((tasks.get? i).map (·.duration)).getD 0

/-- The time-axis negation of a bounds snapshot: each start variable is
replaced by `−start − duration`, so `[lb, ub]` becomes
`[−ub − d, −lb − d]`. This is the substitution of the RevTimeline
symmetry claim. -/
def negAssign (tasks : List TaskDisj) (a : Assignments) : Assignments :=
  ⟨fun i => -(a.ub i) - durOf tasks i, fun i => -(a.lb i) - durOf tasks i⟩

/-- The mirror relation between a forward Timeline (on the negated
instance) and a RevTimeline (on the original instance): time points are
negated, while capacities, map, envelope and union-find coincide. -/
def Mirror (fw : Timeline) (rv : RevTimeline) : Prop :=
  fw.t = rv.t.map (fun x => -x) ∧ fw.c = rv.c ∧ fw.m = rv.m ∧ fw.e = rv.e ∧ fw.s = rv.s

/-- Fold a sequence of `schedule_task` calls over a forward Timeline. -/
def schedSeqF (tl : Timeline) (σ : List TaskDisj) : Option Timeline :=
  σ.foldlM Timeline.schedule_task tl

/-- Fold a sequence of `schedule_task` calls over a RevTimeline. -/
def schedSeqR (tl : RevTimeline) (σ : List TaskDisj) : Option RevTimeline :=
  σ.foldlM RevTimeline.schedule_task tl

/-- `Mirror` lifted to the `Option`-valued results of the two
constructions: both panic, or both succeed with mirrored states. -/
def MirrorO : Option Timeline → Option RevTimeline → Prop
  | none, none => True
  | some fw, some rv => Mirror fw rv
  | _, _ => False

/-- Correspondence of the two completion-time readings: either the
envelope is empty — where the conventions differ: the forward reading is
`0` while the reverse reading is `t[0]` — or the forward reading is the
negation of the reverse one. -/
def readsMirror : Option Timeline → Option RevTimeline → Prop
  | some fw, some rv =>
    (fw.e = -1 ∧ fw.earliest_completion_time = some 0 ∧
      rv.latest_starting_time = rv.t.get? 0) ∨
    fw.earliest_completion_time = Option.map (fun x => -x) rv.latest_starting_time
  | none, none => True
  | _, _ => False

/-- Build the Timeline and schedule one task, reading the resulting
earliest completion time. -/
def newSchedEct (tasks : List TaskDisj) (a : Assignments) (task : TaskDisj) :
    Option Int :=
  (Timeline.new tasks a).bind fun tl =>
    (tl.schedule_task task).bind Timeline.earliest_completion_time

/-- Build the Timeline and schedule a sequence of tasks. -/
def newSchedSeqF (tasks : List TaskDisj) (a : Assignments) (σ : List TaskDisj) :
    Option Timeline :=
  (Timeline.new tasks a).bind fun tl => schedSeqF tl σ

/-- Build the RevTimeline and schedule a sequence of tasks. -/
def newSchedSeqR (tasks : List TaskDisj) (a : Assignments) (σ : List TaskDisj) :
    Option RevTimeline :=
  (RevTimeline.new tasks a).bind fun tl => schedSeqR tl σ

/-- Sum of all task durations. -/
def sumDur (tasks : List TaskDisj) : Int := (tasks.map (·.duration)).sum

/-- The capacity of the appended sentinel slice (the last entry of `c`). -/
def lastCapF (r : Option Timeline) : Option Int := r.bind fun tl => tl.c.getLast?

/-- The capacity of the sentinel slice of a RevTimeline. -/
def lastCapR (r : Option RevTimeline) : Option Int := r.bind fun tl => tl.c.getLast?

/-- Strict order on optional integers; `False` when either is absent. -/
def oLT : Option Int → Option Int → Prop
  | some x, some y => x < y
  | _, _ => False

/-- Modelled from the spec: the solver's removal of a single value from a
bounds-represented start domain (the domain store lives outside the
extracted sources) — removing the value at a bound tightens that bound,
removing an interior value leaves the bounds unchanged. -/
def removeVal (b : Int × Int) (v : Int) : Int × Int :=
  if v = b.1 then (b.1 + 1, b.2) else if v = b.2 then (b.1, b.2 - 1) else b

/-- The start bounds of Scenario 2: the domain `[3, 8]` after removing
the values 3 and 4. -/
def scen2Bounds : Int × Int := removeVal (removeVal (3, 8) 3) 4

/-- The bounds snapshot of Scenario 2 (one task). -/
def scen2A : Assignments := ⟨fun _ => scen2Bounds.1, fun _ => scen2Bounds.2⟩

/-- Scenario 1 and 2 task set: one task of duration 2. -/
def oneTask2 : List TaskDisj := mkTasks [⟨2⟩]

/-- Scenario 1 bounds: start in `[5, 8]`. -/
def scen1A : Assignments := ⟨fun _ => 5, fun _ => 8⟩

/-- Scenario 3 task set: durations 4, 9, 7, 6. -/
def scen3T : List TaskDisj := mkTasks [⟨4⟩, ⟨9⟩, ⟨7⟩, ⟨6⟩]

/-- Scenario 3 bounds: w ∈ [0,15], x ∈ [2,13], y ∈ [9,23], z ∈ [12,14]. -/
def scen3A : Assignments :=
  ⟨fun i => [(0 : Int), 2, 9, 12].getD i 0, fun i => [(15 : Int), 13, 23, 14].getD i 0⟩

/-- Counterexample instance for the no-partial-pushes claim: three tasks
of durations 5, 5, 3 with starts in [5,7], [0,1], [3,7]. -/
def cex1T : List TaskDisj := mkTasks [⟨5⟩, ⟨5⟩, ⟨3⟩]

/-- Bounds of the no-partial-pushes counterexample. -/
def cex1A : Assignments :=
  ⟨fun i => [(5 : Int), 0, 3].getD i 0, fun i => [(7 : Int), 1, 7].getD i 0⟩

/-- Instance whose forward sweep itself conflicts: durations 4, 4, 1 with
starts in [1,1], [1,1], [0,9]. -/
def fcfT : List TaskDisj := mkTasks [⟨4⟩, ⟨4⟩, ⟨1⟩]

/-- Bounds of the forward-sweep-conflict instance. -/
def fcfA : Assignments :=
  ⟨fun i => [(1 : Int), 1, 0].getD i 0, fun i => [(1 : Int), 1, 9].getD i 0⟩

/-- Counterexample instance for the snapshot-coherence claim: two tasks
of durations 2 and 1 with starts in [1,2] and [2,3]. -/
def cex2T : List TaskDisj := mkTasks [⟨2⟩, ⟨1⟩]

/-- Bounds of the snapshot-coherence counterexample. -/
def cex2A : Assignments :=
  ⟨fun i => [(1 : Int), 2].getD i 0, fun i => [(2 : Int), 3].getD i 0⟩

/-- Counterexample bounds for the single-task claim: one task of
duration 1 with start in [−1, 0]. -/
def cex3A : Assignments := ⟨fun _ => -1, fun _ => 0⟩

/-- One task of duration 1. -/
def oneTask1 : List TaskDisj := mkTasks [⟨1⟩]

/-- Invariant of the pour loop over the capacity list `c`, the union-find
`s` and the original time-point list `t`: sizes agree, parents move right
and stay in range, the last slice is never merged from below, every root
below the sentinel has positive remaining capacity, and the remaining
budget `B` is strictly below the sentinel slice's remaining capacity. -/
def PourInv (t c : List Int) (s : UnionFind) (B : Int) : Prop :=
  s.parent.length = t.length ∧ c.length + 1 = t.length ∧
  (∀ j p, s.parent.get? j = some p → p = j ∨ (j < p ∧ p < s.parent.length)) ∧
  (∀ j p, j + 1 < s.parent.length → s.parent.get? j = some p → p + 1 < s.parent.length) ∧
  (∀ j, j < c.length → s.parent.get? j = some j → 0 < c.getD j 0) ∧
  B < c.getD (c.length - 1) 0

/-! ## Theorems -/

/-- C4: For the four-task instance w with start in [0,15] and duration 4,
x in [2,13] with duration 9, y in [9,23] with duration 7, z in [12,14]
with duration 6, `propagate` succeeds and afterwards the lower bound of x
is 2 (unchanged), the lower bound of y is 19, and the lower bound of z is
13. -/
theorem C4_scenario3_pushes :
    conflictOf (propagateF scen3T scen3A) = some false ∧
    lbOf (propagateF scen3T scen3A) 1 = some 2 ∧
    lbOf (propagateF scen3T scen3A) 2 = some 19 ∧
    lbOf (propagateF scen3T scen3A) 3 = some 13 := by decide

/-- C7 counterexample: for a single task of duration 2 whose start domain
is [3,8] minus the values 3 and 4 (bounds [5,8]),
`debug_propagate_from_scratch` does NOT return Conflict — the oracle
finds no task with ECT > LCT (ECT = 7 ≤ LCT = 10), refuting the claim
that it returns Conflict on this input. -/
theorem C7_scenario2_no_conflict_cex :
    debug_propagate_from_scratch oneTask2 scen2A = false ∧ scen2Bounds = (5, 8) := by
  decide

/-- C7 amended: on the Scenario-2 input the oracle returns Ok, and in
general `debug_propagate_from_scratch` reports a conflict exactly when
some task has ECT > LCT. -/
theorem C7_oracle_ok_on_scenario2 :
    debug_propagate_from_scratch oneTask2 scen2A = false ∧
    ∀ (tasks : List TaskDisj) (a : Assignments),
      (debug_propagate_from_scratch tasks a = true ↔
        ∃ tk ∈ tasks, tk.get_ect a > tk.get_lct a) := by
  refine ⟨by decide, fun tasks a => ?_⟩
  simp [debug_propagate_from_scratch]

/-- C1 counterexample: on the three-task instance with starts in [5,7],
[0,1], [3,7] and durations 5, 5, 3, `propagate` returns Conflict (the
reverse sweep detects it) yet the lower bound of task 2 has been pushed
from 3 to 5 — a partial push is kept on error. -/
theorem C1_partial_pushes_kept_cex :
    conflictOf (propagateF cex1T cex1A) = some true ∧
    lbOf (propagateF cex1T cex1A) 2 = some 5 ∧ cex1A.lb 2 = 3 := by decide

/-- C1 amended: a Conflict raised during the forward sweep itself aborts
the call with the assignments exactly as at entry and no bound-update
call made; only Conflicts raised after the forward apply phase can keep
the already-applied lower-bound pushes. -/
theorem C1_sweep_conflict_state_unchanged (tasks : List TaskDisj) (a0 : Assignments)
    (h : sweepConflictOf (forwardSweep tasks a0) = some true) :
    propagateF tasks a0 = some ⟨true, a0, [], []⟩ := by
  cases hf : forwardSweep tasks a0 with
  | none => simp [sweepConflictOf, hf] at h
  | some s =>
    cases s with
    | conflict => unfold propagateF; rw [hf]
    | ok st => simp [sweepConflictOf, hf] at h

/-- Witness for the amended C1 theorem at a concrete input whose forward
sweep conflicts. -/
theorem C1_sweep_conflict_state_unchanged_witness :
    sweepConflictOf (forwardSweep fcfT fcfA) = some true ∧
    propagateF fcfT fcfA = some ⟨true, fcfA, [], []⟩ :=
  ⟨by decide, C1_sweep_conflict_state_unchanged fcfT fcfA (by decide)⟩

/-- C2 counterexample: on two tasks with starts in [1,2], [2,3] and
durations 2, 1, the source's `propagate` lowers task 0's upper bound to 1
(the reverse sweep reads task 1's freshly applied lower bound), while the
claimed behaviour — both sweeps reading the entry snapshot, pushes
applied after both sweeps — leaves it at 2. -/
theorem C2_sweeps_see_different_inputs_cex :
    ubOf (propagateF cex2T cex2A) 0 = some 1 ∧
    ubOf (propagateSpecOrdered cex2T cex2A) 0 = some 2 ∧
    conflictOf (propagateF cex2T cex2A) = some false := by decide

/-- C3 counterexample: for the single task with start in [−1,0] and
duration 1, `propagate` succeeds but CHANGES the lower bound from −1 to 0
(the empty-timeline reading 0 is recorded as a push and survives the
`push ≤ EST` filter because EST < 0), refuting the claim for arbitrary
start intervals. -/
theorem C3_single_task_negative_est_cex :
    conflictOf (propagateF oneTask1 cex3A) = some false ∧
    lbOf (propagateF oneTask1 cex3A) 0 = some 0 ∧ cex3A.lb 0 = -1 := by decide

/-- C5 counterexample: negating the time axis of the single-task instance
with start in [5,8] and duration 2 gives start in [−10,−7]; `propagate`
on the original succeeds with no bound change, while on the negated
instance it returns Conflict (the forward sweep's empty-timeline reading
0 becomes an effective, infeasible lower-bound push) — the pushes are not
identical. -/
theorem C5_negation_not_identical_pushes_cex :
    conflictOf (propagateF oneTask2 (negAssign oneTask2 scen1A)) = some true ∧
    conflictOf (propagateF oneTask2 scen1A) = some false ∧
    lbOf (propagateF oneTask2 scen1A) 0 = some 5 ∧
    ubOf (propagateF oneTask2 scen1A) 0 = some 8 := by decide

/-- C10: `Timeline::new`, `RevTimeline::new`, and therefore `propagate`
require a non-empty task array: with zero tasks the `unwrap` of the
maximum LCT (resp. minimum EST) and the indexing of the first element of
the sorted orderings panic (`none`); with at least one task these partial
operations succeed. -/
theorem C10_nonempty_required (tasks : List TaskDisj) (a : Assignments) :
    (Timeline.new tasks a).isSome = !tasks.isEmpty ∧
    (RevTimeline.new tasks a).isSome = !tasks.isEmpty ∧
    ((sortAscBy (fun tk => tk.get_lst a) tasks).get? 0).isSome = !tasks.isEmpty ∧
    ((sortDescBy (fun tk => tk.get_ect a) tasks).get? 0).isSome = !tasks.isEmpty ∧
    (tasks = [] → propagateF tasks a = none) := by
  cases tasks with
  | nil => exact ⟨rfl, rfl, rfl, rfl, fun _ => rfl⟩
  | cons t ts =>
    refine ⟨?_, ?_, ?_, ?_, fun h => by cases h⟩
    · simp [Timeline.new, List.max?]
    · simp [RevTimeline.new, List.min?]
    · cases hs : sortAscBy (fun tk => tk.get_lst a) (t :: ts) with
      | nil =>
        exfalso
        have hlen := congrArg List.length hs
        simp [sortAscBy, List.orderedInsert_length, List.length_insertionSort] at hlen
      | cons x xs => rfl
    · cases hs : sortDescBy (fun tk => tk.get_ect a) (t :: ts) with
      | nil =>
        exfalso
        have hlen := congrArg List.length hs
        simp [sortDescBy, List.orderedInsert_length, List.length_insertionSort] at hlen
      | cons x xs => rfl

/-- Witness for C10: the empty task list makes construction and
propagation panic, while a singleton succeeds. -/
theorem C10_nonempty_required_witness :
    (Timeline.new ([] : List TaskDisj) scen1A).isSome = false ∧
    propagateF [] scen1A = none ∧
    (Timeline.new oneTask2 scen1A).isSome = true :=
  ⟨by simpa using (C10_nonempty_required [] scen1A).1,
   (C10_nonempty_required [] scen1A).2.2.2.2 rfl,
   by simpa using (C10_nonempty_required oneTask2 scen1A).1⟩

/-- The apply loop only extends the accumulated call list; when it adds
no call, the assignments pass through unchanged and no conflict arises. -/
theorem applyLower_calls_extend (tasks : List TaskDisj) (aSnap : Assignments)
    (props : Nat → Option Int) (l : List Nat) :
    ∀ (a : Assignments) (cs : List (Nat × Int)) (out : ApplyOut),
      applyLower tasks aSnap props l a cs = some out →
      ∃ suf, out.calls = cs ++ suf ∧ (suf = [] → out.a = a ∧ out.conflicted = false) := by
  induction l with
  | nil =>
    intro a cs out h
    simp only [applyLower, Option.some.injEq] at h
    exact ⟨[], by simp [← h], fun _ => by simp [← h]⟩
  | cons id rest ih =>
    intro a cs out h
    simp only [applyLower] at h
    cases hp : props id with
    | none => rw [hp] at h; dsimp only at h; exact ih a cs out h
    | some v =>
      rw [hp] at h; dsimp only at h
      cases ht : tasks.get? id with
      | none => rw [ht] at h; dsimp only at h; cases h
      | some task =>
        rw [ht] at h; dsimp only at h
        by_cases hg : v ≤ task.get_est aSnap
        · rw [if_pos hg] at h
          exact ih a cs out h
        · rw [if_neg hg] at h
          cases hs : setLowerBound a task.localId v with
          | none =>
            rw [hs] at h; dsimp only at h
            simp only [Option.some.injEq] at h
            refine ⟨[(task.localId, v)], by simp [← h], fun hemp => by cases hemp⟩
          | some a' =>
            rw [hs] at h; dsimp only at h
            obtain ⟨suf, hc, _⟩ := ih a' (cs ++ [(task.localId, v)]) out h
            exact ⟨(task.localId, v) :: suf, by simpa using hc, fun hemp => by cases hemp⟩

/-- C2 amended: the forward sweep reads the entry snapshot and its pushes
are applied before the reverse sweep runs; the reverse sweep reads the
snapshot that already includes those lower-bound pushes. Whenever the
forward phase applies no push, the call coincides exactly with the
claimed behaviour — both sweeps reading the entry snapshot with all
pushes applied at the end. -/
theorem C2_spec_order_iff_no_lower_push (tasks : List TaskDisj) (a0 : Assignments)
    (h : callsLOf (propagateF tasks a0) = some []) :
    propagateF tasks a0 = propagateSpecOrdered tasks a0 := by
  cases hf : forwardSweep tasks a0 with
  | none => unfold propagateF propagateSpecOrdered; rw [hf]
  | some s =>
    cases s with
    | conflict => unfold propagateF propagateSpecOrdered; rw [hf]
    | ok st =>
      unfold propagateF at h
      rw [hf] at h; dsimp only at h
      cases hl : applyLower tasks a0 st.props (List.range tasks.length) a0 [] with
      | none =>
        rw [hl] at h
        simp [callsLOf] at h
      | some outL =>
        rw [hl] at h; dsimp only at h
        obtain ⟨suf, hsuf, himp⟩ :=
          applyLower_calls_extend tasks a0 st.props (List.range tasks.length) a0 [] outL hl
        simp only [List.nil_append] at hsuf
        cases hc : outL.conflicted with
        | true =>
          rw [hc] at h
          simp [callsLOf] at h
          have := (himp (by rw [← hsuf, h])).2
          rw [hc] at this
          cases this
        | false =>
          rw [hc] at h
          simp only [Bool.false_eq_true, if_false] at h
          have hcalls : outL.calls = [] := by
            cases hr : reverseSweep tasks outL.a with
            | none => rw [hr] at h; simp [callsLOf] at h
            | some sU =>
              cases sU with
              | conflict =>
                rw [hr] at h
                simpa [callsLOf] using h
              | ok stU =>
                rw [hr] at h; dsimp only at h
                cases hu : applyUpper tasks outL.a stU.props (List.range tasks.length) outL.a [] with
                | none => rw [hu] at h; simp [callsLOf] at h
                | some outU =>
                  rw [hu] at h
                  simpa [callsLOf] using h
          obtain ⟨ha, -⟩ := himp (by rw [← hsuf, hcalls])
          unfold propagateF propagateSpecOrdered
          rw [hf]; dsimp only
          rw [hl]; dsimp only
          simp only [hc, ha, hcalls, Bool.false_eq_true, if_false]

/-- Witness for the amended C2 theorem: the Scenario-1 instance applies
no lower-bound push, and the source's ordering agrees with the claimed
one there. -/
theorem C2_spec_order_iff_no_lower_push_witness :
    callsLOf (propagateF oneTask2 scen1A) = some [] ∧
    propagateF oneTask2 scen1A = propagateSpecOrdered oneTask2 scen1A :=
  ⟨by decide, C2_spec_order_iff_no_lower_push oneTask2 scen1A (by decide)⟩


/-- The lower-bound apply loop only raises lower bounds — each final lower
bound equals the incoming one or strictly exceeds the snapshot lower
bound — and never touches upper bounds. -/
theorem applyLower_bounds (tasks : List TaskDisj) (aSnap : Assignments)
    (props : Nat → Option Int) (l : List Nat) :
    ∀ (a : Assignments) (cs : List (Nat × Int)) (out : ApplyOut),
      applyLower tasks aSnap props l a cs = some out →
      ∀ j, (out.a.lb j = a.lb j ∨ aSnap.lb j < out.a.lb j) ∧ out.a.ub j = a.ub j := by
  induction l with
  | nil =>
    intro a cs out h j
    simp only [applyLower, Option.some.injEq] at h
    simp [← h]
  | cons id rest ih =>
    intro a cs out h j
    simp only [applyLower] at h
    cases hp : props id with
    | none => rw [hp] at h; dsimp only at h; exact ih a cs out h j
    | some v =>
      rw [hp] at h; dsimp only at h
      cases ht : tasks.get? id with
      | none => rw [ht] at h; dsimp only at h; cases h
      | some task =>
        rw [ht] at h; dsimp only at h
        by_cases hg : v ≤ task.get_est aSnap
        · rw [if_pos hg] at h
          exact ih a cs out h j
        · rw [if_neg hg] at h
          cases hs : setLowerBound a task.localId v with
          | none =>
            rw [hs] at h; dsimp only at h
            simp only [Option.some.injEq] at h
            simp [← h]
          | some a' =>
            rw [hs] at h; dsimp only at h
            have hstep := ih a' (cs ++ [(task.localId, v)]) out h j
            unfold setLowerBound at hs
            by_cases hub : v ≤ a.ub task.localId
            · rw [if_pos hub] at hs
              simp only [Option.some.injEq] at hs
              subst hs
              simp only [TaskDisj.get_est] at hg
              rcases hstep with ⟨hlb, hub2⟩
              refine ⟨?_, by simpa using hub2⟩
              rcases hlb with heq | hlt
              · by_cases hj : j = task.localId
                · subst hj; right; rw [heq]; simp; omega
                · left; rw [heq]; simp [hj]
              · right; exact hlt
            · rw [if_neg hub] at hs; cases hs

/-- Every `set_lower_bound` call the lower apply loop adds carries a value
strictly greater than the snapshot lower bound of its variable. -/
theorem applyLower_calls_strict (tasks : List TaskDisj) (aSnap : Assignments)
    (props : Nat → Option Int) (l : List Nat) :
    ∀ (a : Assignments) (cs : List (Nat × Int)) (out : ApplyOut),
      applyLower tasks aSnap props l a cs = some out →
      ∀ p ∈ out.calls, p ∈ cs ∨ aSnap.lb p.1 < p.2 := by
  induction l with
  | nil =>
    intro a cs out h p hp
    simp only [applyLower, Option.some.injEq] at h
    left; rw [← h] at hp; exact hp
  | cons id rest ih =>
    intro a cs out h p hp
    simp only [applyLower] at h
    cases hq : props id with
    | none => rw [hq] at h; dsimp only at h; exact ih a cs out h p hp
    | some v =>
      rw [hq] at h; dsimp only at h
      cases ht : tasks.get? id with
      | none => rw [ht] at h; dsimp only at h; cases h
      | some task =>
        rw [ht] at h; dsimp only at h
        by_cases hg : v ≤ task.get_est aSnap
        · rw [if_pos hg] at h
          exact ih a cs out h p hp
        · rw [if_neg hg] at h
          simp only [TaskDisj.get_est, not_le] at hg
          cases hs : setLowerBound a task.localId v with
          | none =>
            rw [hs] at h; dsimp only at h
            simp only [Option.some.injEq] at h
            rw [← h] at hp
            simp only [List.mem_append, List.mem_singleton] at hp
            rcases hp with hin | heq
            · left; exact hin
            · right; subst heq; exact hg
          | some a' =>
            rw [hs] at h; dsimp only at h
            rcases ih a' (cs ++ [(task.localId, v)]) out h p hp with hin | hlt
            · simp only [List.mem_append, List.mem_singleton] at hin
              rcases hin with hin | heq
              · left; exact hin
              · right; subst heq; exact hg
            · right; exact hlt

/-- The upper-bound apply loop only lowers upper bounds and never touches
lower bounds. -/
theorem applyUpper_bounds (tasks : List TaskDisj) (aSnap : Assignments)
    (props : Nat → Option Int) (l : List Nat) :
    ∀ (a : Assignments) (cs : List (Nat × Int)) (out : ApplyOut),
      applyUpper tasks aSnap props l a cs = some out →
      ∀ j, (out.a.ub j = a.ub j ∨ out.a.ub j < aSnap.ub j) ∧ out.a.lb j = a.lb j := by
  induction l with
  | nil =>
    intro a cs out h j
    simp only [applyUpper, Option.some.injEq] at h
    simp [← h]
  | cons id rest ih =>
    intro a cs out h j
    simp only [applyUpper] at h
    cases hp : props id with
    | none => rw [hp] at h; dsimp only at h; exact ih a cs out h j
    | some v =>
      rw [hp] at h; dsimp only at h
      cases ht : tasks.get? id with
      | none => rw [ht] at h; dsimp only at h; cases h
      | some task =>
        rw [ht] at h; dsimp only at h
        by_cases hg : v ≥ task.get_lst aSnap
        · rw [if_pos hg] at h
          exact ih a cs out h j
        · rw [if_neg hg] at h
          cases hs : setUpperBound a task.localId v with
          | none =>
            rw [hs] at h; dsimp only at h
            simp only [Option.some.injEq] at h
            simp [← h]
          | some a' =>
            rw [hs] at h; dsimp only at h
            have hstep := ih a' (cs ++ [(task.localId, v)]) out h j
            unfold setUpperBound at hs
            by_cases hlb : v ≥ a.lb task.localId
            · rw [if_pos hlb] at hs
              simp only [Option.some.injEq] at hs
              subst hs
              simp only [TaskDisj.get_lst, not_le] at hg
              rcases hstep with ⟨hub, hlb2⟩
              refine ⟨?_, by simpa using hlb2⟩
              rcases hub with heq | hlt
              · by_cases hj : j = task.localId
                · subst hj; right; rw [heq]; simp; omega
                · left; rw [heq]; simp [hj]
              · right; exact hlt
            · rw [if_neg hlb] at hs; cases hs

/-- Every `set_upper_bound` call the upper apply loop adds carries a value
strictly smaller than the snapshot upper bound of its variable. -/
theorem applyUpper_calls_strict (tasks : List TaskDisj) (aSnap : Assignments)
    (props : Nat → Option Int) (l : List Nat) :
    ∀ (a : Assignments) (cs : List (Nat × Int)) (out : ApplyOut),
      applyUpper tasks aSnap props l a cs = some out →
      ∀ p ∈ out.calls, p ∈ cs ∨ p.2 < aSnap.ub p.1 := by
  induction l with
  | nil =>
    intro a cs out h p hp
    simp only [applyUpper, Option.some.injEq] at h
    left; rw [← h] at hp; exact hp
  | cons id rest ih =>
    intro a cs out h p hp
    simp only [applyUpper] at h
    cases hq : props id with
    | none => rw [hq] at h; dsimp only at h; exact ih a cs out h p hp
    | some v =>
      rw [hq] at h; dsimp only at h
      cases ht : tasks.get? id with
      | none => rw [ht] at h; dsimp only at h; cases h
      | some task =>
        rw [ht] at h; dsimp only at h
        by_cases hg : v ≥ task.get_lst aSnap
        · rw [if_pos hg] at h
          exact ih a cs out h p hp
        · rw [if_neg hg] at h
          simp only [TaskDisj.get_lst, not_le] at hg
          cases hs : setUpperBound a task.localId v with
          | none =>
            rw [hs] at h; dsimp only at h
            simp only [Option.some.injEq] at h
            rw [← h] at hp
            simp only [List.mem_append, List.mem_singleton] at hp
            rcases hp with hin | heq
            · left; exact hin
            · right; subst heq; exact hg
          | some a' =>
            rw [hs] at h; dsimp only at h
            rcases ih a' (cs ++ [(task.localId, v)]) out h p hp with hin | hlt
            · simp only [List.mem_append, List.mem_singleton] at hin
              rcases hin with hin | heq
              · left; exact hin
              · right; subst heq; exact hg
            · right; exact hlt

/-- C6: `propagate` only raises lower bounds and only lowers upper bounds:
every `set_lower_bound` call passes a value strictly greater than the
task's lower bound at entry (which is its current one — each variable is
set at most once per phase), every `set_upper_bound` call passes a value
strictly smaller than the task's upper bound, and ties or weaker pushes
are dropped (they generate no call at all). -/
theorem C6_bound_monotonicity (tasks : List TaskDisj) (a0 : Assignments) (i : Nat) (v : Int) :
    (lbOf (propagateF tasks a0) i = some v → a0.lb i ≤ v) ∧
    (ubOf (propagateF tasks a0) i = some v → v ≤ a0.ub i) ∧
    ((i, v) ∈ (callsLOf (propagateF tasks a0)).getD [] → a0.lb i < v) ∧
    ((i, v) ∈ (callsUOf (propagateF tasks a0)).getD [] → v < a0.ub i) := by
  cases hf : forwardSweep tasks a0 with
  | none =>
    unfold propagateF
    rw [hf]
    refine ⟨fun h => ?_, fun h => ?_, fun h => ?_, fun h => ?_⟩
    · simp [lbOf] at h
    · simp [ubOf] at h
    · simp [callsLOf] at h
    · simp [callsUOf] at h
  | some s =>
    cases s with
    | conflict =>
      unfold propagateF
      rw [hf]; dsimp only
      refine ⟨fun h => ?_, fun h => ?_, fun h => ?_, fun h => ?_⟩
      · simp [lbOf] at h; omega
      · simp [ubOf] at h; omega
      · simp [callsLOf] at h
      · simp [callsUOf] at h
    | ok st =>
      unfold propagateF
      rw [hf]; dsimp only
      cases hl : applyLower tasks a0 st.props (List.range tasks.length) a0 [] with
      | none =>
        refine ⟨fun h => ?_, fun h => ?_, fun h => ?_, fun h => ?_⟩
        · simp [lbOf] at h
        · simp [ubOf] at h
        · simp [callsLOf] at h
        · simp [callsUOf] at h
      | some outL =>
        dsimp only
        have hLb := applyLower_bounds tasks a0 st.props (List.range tasks.length) a0 [] outL hl
        have hLs := applyLower_calls_strict tasks a0 st.props (List.range tasks.length) a0 [] outL hl
        have hlbi : a0.lb i ≤ outL.a.lb i := by
          rcases (hLb i).1 with heq | hlt
          · omega
          · omega
        have hubi : outL.a.ub i = a0.ub i := (hLb i).2
        cases hc : outL.conflicted with
        | true =>
          simp only [eq_self_iff_true, if_true]
          refine ⟨fun h => ?_, fun h => ?_, fun h => ?_, fun h => ?_⟩
          · simp [lbOf] at h; omega
          · simp [ubOf] at h; omega
          · simp [callsLOf] at h
            rcases hLs (i, v) h with hin | hlt
            · cases hin
            · exact hlt
          · simp [callsUOf] at h
        | false =>
          simp only [Bool.false_eq_true, if_false]
          cases hr : reverseSweep tasks outL.a with
          | none =>
            refine ⟨fun h => ?_, fun h => ?_, fun h => ?_, fun h => ?_⟩
            · simp [lbOf] at h
            · simp [ubOf] at h
            · simp [callsLOf] at h
            · simp [callsUOf] at h
          | some sU =>
            cases sU with
            | conflict =>
              dsimp only
              refine ⟨fun h => ?_, fun h => ?_, fun h => ?_, fun h => ?_⟩
              · simp [lbOf] at h; omega
              · simp [ubOf] at h; omega
              · simp [callsLOf] at h
                rcases hLs (i, v) h with hin | hlt
                · cases hin
                · exact hlt
              · simp [callsUOf] at h
            | ok stU =>
              dsimp only
              cases hu : applyUpper tasks outL.a stU.props (List.range tasks.length) outL.a [] with
              | none =>
                refine ⟨fun h => ?_, fun h => ?_, fun h => ?_, fun h => ?_⟩
                · simp [lbOf] at h
                · simp [ubOf] at h
                · simp [callsLOf] at h
                · simp [callsUOf] at h
              | some outU =>
                dsimp only
                have hUb := applyUpper_bounds tasks outL.a stU.props (List.range tasks.length) outL.a [] outU hu
                have hUs := applyUpper_calls_strict tasks outL.a stU.props (List.range tasks.length) outL.a [] outU hu
                have hubi2 : outU.a.ub i ≤ outL.a.ub i := by
                  rcases (hUb i).1 with heq | hlt
                  · omega
                  · omega
                have hlbi2 : outU.a.lb i = outL.a.lb i := (hUb i).2
                refine ⟨fun h => ?_, fun h => ?_, fun h => ?_, fun h => ?_⟩
                · simp [lbOf] at h; omega
                · simp [ubOf] at h; omega
                · simp [callsLOf] at h
                  rcases hLs (i, v) h with hin | hlt
                  · cases hin
                  · exact hlt
                · simp [callsUOf] at h
                  rcases hUs (i, v) h with hin | hlt
                  · cases hin
                  · calc v < outL.a.ub i := hlt
                      _ = a0.ub i := hubi

/-- Witness for C6 at the Scenario-3 instance: the call pushing y to 19 is
strict, and so is the upper call pushing x to 5. -/
theorem C6_bound_monotonicity_witness :
    ((2, 19) ∈ (callsLOf (propagateF scen3T scen3A)).getD []) ∧ scen3A.lb 2 < 19 ∧
    ((1, 5) ∈ (callsUOf (propagateF scen3T scen3A)).getD []) ∧ (5 : Int) < scen3A.ub 1 ∧
    lbOf (propagateF scen3T scen3A) 2 = some 19 ∧ scen3A.lb 2 ≤ 19 :=
  ⟨by decide, (C6_bound_monotonicity scen3T scen3A 2 19).2.2.1 (by decide),
   by decide, (C6_bound_monotonicity scen3T scen3A 1 5).2.2.2 (by decide),
   by decide, (C6_bound_monotonicity scen3T scen3A 2 19).1 (by decide)⟩

/-- C3 amended: for every single-task problem whose lower bound is
nonnegative (any duration), `propagate` succeeds with no bound change and
no bound-update call: the Timeline stays empty (E = −1), the recorded
push is the empty-envelope reading 0, and the `push ≤ EST` filter drops
it. (With a negative lower bound the push 0 is applied instead.) -/
theorem C3_single_task_nonneg_est (dur : Int) (a : Assignments)
    (hest : 0 ≤ a.lb 0) :
    propagateF (mkTasks [⟨dur⟩]) a = some ⟨false, a, [], []⟩ ∧
    fwdEOf (forwardSweep (mkTasks [⟨dur⟩]) a) = some (-1) ∧
    fwdPropsOf (forwardSweep (mkTasks [⟨dur⟩]) a) 0 = some (some 0) := by
  refine ⟨?_, ?_, ?_⟩ <;>
    simp [propagateF, forwardSweep, reverseSweep, Timeline.new, RevTimeline.new,
      sortAscBy, sortDescBy, buildTM, fwdOuter, fwdInner, revOuter, revInner,
      insertStricterLB, insertStricterUB, Timeline.earliest_completion_time,
      RevTimeline.latest_starting_time, applyLower, applyUpper, setLowerBound,
      setUpperBound, TaskDisj.get_est, TaskDisj.get_lst, TaskDisj.get_ect,
      TaskDisj.get_lct, fwdEOf, fwdPropsOf, mkTasks, List.max?, List.min?,
      List.range_succ, hest, UnionFind.new]

/-- Witness for the amended C3 theorem at the Scenario-1 instance
(start in [5, 8], duration 2). -/
theorem C3_single_task_nonneg_est_witness :
    0 ≤ scen1A.lb 0 ∧
    propagateF (mkTasks [⟨2⟩]) scen1A = some ⟨false, scen1A, [], []⟩ :=
  ⟨by decide, (C3_single_task_nonneg_est 2 scen1A (by decide)).1⟩


/-- `orderedInsert` depends on the comparator only through its values on
the inserted element and the list elements. -/
theorem orderedInsert_congr (r r' : TaskDisj → TaskDisj → Prop)
    [DecidableRel r] [DecidableRel r'] (x : TaskDisj) :
    ∀ l : List TaskDisj, (∀ y ∈ l, r x y ↔ r' x y) →
      List.orderedInsert r x l = List.orderedInsert r' x l
  | [], _ => rfl
  | y :: ys, h => by
    simp only [List.orderedInsert]
    by_cases hr : r x y
    · rw [if_pos hr, if_pos ((h y (by simp)).mp hr)]
    · rw [if_neg hr, if_neg fun hc => hr ((h y (by simp)).mpr hc)]
      rw [orderedInsert_congr r r' x ys fun z hz => h z (by simp [hz])]

/-- A stable sort depends on the comparator only through its values on
the list elements. -/
theorem insertionSort_congr (r r' : TaskDisj → TaskDisj → Prop)
    [DecidableRel r] [DecidableRel r'] :
    ∀ l : List TaskDisj, (∀ x ∈ l, ∀ y ∈ l, r x y ↔ r' x y) →
      List.insertionSort r l = List.insertionSort r' l
  | [], _ => rfl
  | x :: xs, h => by
    simp only [List.insertionSort]
    rw [insertionSort_congr r r' xs fun p hp q hq => h p (by simp [hp]) q (by simp [hq])]
    exact orderedInsert_congr r r' x _ fun y hy =>
      h x (by simp) y (by simp [(List.mem_insertionSort r').mp hy])

/-- Negating the key negates the collected time points of `buildTM` and
leaves the task-to-slice map unchanged. -/
theorem buildTM_neg (key1 key2 : TaskDisj → Int) :
    ∀ (l : List TaskDisj) (t : List Int) (m : List Nat),
      (∀ tk ∈ l, key1 tk = -(key2 tk)) →
      buildTM key1 l (t.map fun x => -x) m =
        ((buildTM key2 l t m).1.map fun x => -x, (buildTM key2 l t m).2)
  | [], t, m, _ => rfl
  | task :: rest, t, m, h => by
    simp only [buildTM]
    have hk : key1 task = -(key2 task) := h task (by simp)
    have hcond : ((t.map fun x => -x).getLast? = some (key1 task)) ↔
        (t.getLast? = some (key2 task)) := by
      rw [List.getLast?_map, hk]
      cases t.getLast? <;> simp
    by_cases hc : t.getLast? = some (key2 task)
    · rw [if_pos (hcond.mpr hc), if_pos hc]
      rw [List.length_map]
      exact buildTM_neg key1 key2 rest t _ fun tk htk => h tk (by simp [htk])
    · rw [if_neg fun hx => hc (hcond.mp hx), if_neg hc]
      have hmap : (t.map fun x => -x) ++ [key1 task] = (t ++ [key2 task]).map fun x => -x := by
        rw [hk]; simp
      rw [hmap, List.length_map]
      have hlen : ((t ++ [key2 task]).map fun x => -x).length = (t ++ [key2 task]).length :=
        List.length_map _ _
      exact buildTM_neg key1 key2 rest (t ++ [key2 task]) _ fun tk htk => h tk (by simp [htk])

/-- The maximum of the negated values is the negated minimum. -/
theorem max?_map_neg : ∀ l : List Int,
    (l.map fun v => -v).max? = l.min?.map fun v => -v
  | [] => rfl
  | x :: xs => by
    simp only [List.map_cons, List.max?_cons, List.min?_cons, Option.map_some']
    rw [max?_map_neg xs]
    cases xs.min? with
    | none => simp
    | some m =>
      simp only [Option.map_some', Option.elim_some, Option.some.injEq]
      omega

/-- Forward capacities of a negated time-point vector equal the reverse
capacities of the original one. -/
theorem zip_c_neg (t : List Int) :
    List.zipWith (fun x y => y - x) (t.map fun v => -v) (t.map fun v => -v).tail =
      List.zipWith (fun x y => x - y) t t.tail := by
  rw [← List.map_tail, List.zipWith_map]
  have : (fun (a b : Int) => -b - -a) = fun a b => a - b := by
    funext a b; ring
  rw [this]

/-- The task at position `i` of the constructed task list carries
`local_id` `i` and the duration of the `i`-th argument. -/
theorem mkTasks_get? (args : List ArgTaskDisj) (i : Nat) :
    (mkTasks args).get? i = (args.get? i).map fun arg => ⟨arg.duration, i⟩ := by
  simp only [mkTasks, List.get?_map, List.get?_enum]
  cases args.get? i <;> simp

/-- With the dense ids assigned by the propagator's constructor,
`durOf` recovers each task's own duration. -/
theorem mkTasks_durOf (args : List ArgTaskDisj) :
    ∀ tk ∈ mkTasks args, durOf (mkTasks args) tk.localId = tk.duration := by
  intro tk htk
  obtain ⟨n, hn⟩ := List.mem_iff_get?.mp htk
  rw [mkTasks_get? args n] at hn
  cases ha : args.get? n with
  | none => rw [ha] at hn; cases hn
  | some arg =>
    rw [ha] at hn
    simp only [Option.map_some', Option.some.injEq] at hn
    subst hn
    unfold durOf
    rw [mkTasks_get? args n, ha]
    simp

/-- Construction mirror: the forward Timeline built on the time-negated
instance and the RevTimeline built on the original instance have negated
time points and identical capacities, map, envelope and union-find. -/
theorem Timeline_new_mirror (args : List ArgTaskDisj) (a : Assignments) :
    MirrorO (Timeline.new (mkTasks args) (negAssign (mkTasks args) a))
      (RevTimeline.new (mkTasks args) a) := by
  have hdense := mkTasks_durOf args
  have hest : ∀ tk ∈ mkTasks args,
      TaskDisj.get_est tk (negAssign (mkTasks args) a) = -(TaskDisj.get_lct tk a) := by
    intro tk htk
    simp only [TaskDisj.get_est, TaskDisj.get_lct, negAssign, hdense tk htk]
    ring
  have hlct : ∀ tk ∈ mkTasks args,
      TaskDisj.get_lct tk (negAssign (mkTasks args) a) = -(TaskDisj.get_est tk a) := by
    intro tk htk
    simp only [TaskDisj.get_lct, TaskDisj.get_est, negAssign, hdense tk htk]
    ring
  have hsort : sortAscBy (fun tk => tk.get_est (negAssign (mkTasks args) a)) (mkTasks args)
      = sortDescBy (fun tk => tk.get_lct a) (mkTasks args) := by
    unfold sortAscBy sortDescBy
    apply insertionSort_congr
    intro x hx y hy
    dsimp only
    rw [hest x hx, hest y hy]
    constructor <;> intro h <;> omega
  have hmem : ∀ tk ∈ sortDescBy (fun tk => tk.get_lct a) (mkTasks args), tk ∈ mkTasks args := by
    intro tk htk
    exact (List.mem_insertionSort _).mp htk
  have hbuild := buildTM_neg (fun tk => tk.get_est (negAssign (mkTasks args) a))
      (fun tk => tk.get_lct a) (sortDescBy (fun tk => tk.get_lct a) (mkTasks args))
      [] (List.replicate (mkTasks args).length 0)
      (fun tk htk => hest tk (hmem tk htk))
  simp only [List.map_nil] at hbuild
  have hmax : ((mkTasks args).map fun tk => tk.get_lct (negAssign (mkTasks args) a)).max?
      = (((mkTasks args).map fun tk => tk.get_est a).min?).map fun v => -v := by
    rw [List.map_congr_left fun tk htk => hlct tk htk]
    rw [show ((mkTasks args).map fun tk => -(tk.get_est a))
        = (((mkTasks args).map fun tk => tk.get_est a).map fun v => -v) by
      rw [List.map_map]; rfl]
    exact max?_map_neg _
  unfold Timeline.new RevTimeline.new
  dsimp only
  rw [hsort, hbuild, hmax]
  dsimp only
  cases hmin : (((mkTasks args).map fun tk => tk.get_est a).min?) with
  | none => exact trivial
  | some lo =>
    dsimp only [Option.map_some']
    have hsent : (buildTM (fun tk => tk.get_lct a)
          (sortDescBy (fun tk => tk.get_lct a) (mkTasks args)) []
          (List.replicate (mkTasks args).length 0)).1.map (fun x => -x)
          ++ [-lo + ((mkTasks args).map fun tk => tk.duration).sum]
        = ((buildTM (fun tk => tk.get_lct a)
          (sortDescBy (fun tk => tk.get_lct a) (mkTasks args)) []
          (List.replicate (mkTasks args).length 0)).1
          ++ [lo - ((mkTasks args).map fun tk => tk.duration).sum]).map fun x => -x := by
      simp
      ring
    refine ⟨?_, ?_, rfl, rfl, ?_⟩
    · exact hsent
    · rw [hsent]
      exact zip_c_neg _
    · rw [hsent, List.length_map]

/-- One `schedule_task` step preserves the mirror relation (the pouring
loop never reads the time points). -/
theorem schedule_mirror (fw : Timeline) (rv : RevTimeline) (task : TaskDisj)
    (h : Mirror fw rv) : MirrorO (fw.schedule_task task) (rv.schedule_task task) := by
  obtain ⟨ht, hc, hm, he, hs⟩ := h
  unfold Timeline.schedule_task RevTimeline.schedule_task
  rw [ht, hc, hm, he, hs]
  cases h1 : rv.m.get? task.localId with
  | none => exact trivial
  | some mi =>
    dsimp only
    cases h2 : rv.s.find mi with
    | none => exact trivial
    | some p =>
      obtain ⟨k0, s0⟩ := p
      dsimp only
      cases h3 : scheduleLoop (task.duration.toNat + rv.c.length + 1) task.duration k0 rv.c s0 with
      | none => exact trivial
      | some q =>
        obtain ⟨k, c, s⟩ := q
        exact ⟨rfl, rfl, rfl, rfl, rfl⟩

/-- Any sequence of `schedule_task` steps preserves the mirror relation,
panics included. -/
theorem schedSeq_mirror : ∀ (σ : List TaskDisj) (fw : Timeline) (rv : RevTimeline),
    Mirror fw rv → MirrorO (schedSeqF fw σ) (schedSeqR rv σ)
  | [], fw, rv, h => h
  | x :: σ, fw, rv, h => by
    have hstep := schedule_mirror fw rv x h
    unfold schedSeqF schedSeqR
    simp only [List.foldlM_cons]
    cases h1 : fw.schedule_task x with
    | none =>
      cases h2 : rv.schedule_task x with
      | none => exact trivial
      | some rv' => rw [h1, h2] at hstep; exact absurd hstep (by simp [MirrorO])
    | some fw' =>
      cases h2 : rv.schedule_task x with
      | none => rw [h1, h2] at hstep; exact absurd hstep (by simp [MirrorO])
      | some rv' =>
        rw [h1, h2] at hstep
        exact schedSeq_mirror σ fw' rv' hstep

/-- Mirrored timelines have mirrored readings: with a non-empty envelope
the earliest completion time is the negated latest starting time; with an
empty envelope the conventions differ (`0` versus `t[0]`). -/
theorem reads_of_mirror (fw : Timeline) (rv : RevTimeline) (h : Mirror fw rv) :
    readsMirror (some fw) (some rv) := by
  obtain ⟨ht, hc, hm, he, hs⟩ := h
  unfold readsMirror
  by_cases hemp : fw.e = -1
  · left
    refine ⟨hemp, ?_, ?_⟩
    · simp [Timeline.earliest_completion_time, hemp]
    · simp [RevTimeline.latest_starting_time, ← he, hemp]
  · right
    unfold Timeline.earliest_completion_time RevTimeline.latest_starting_time
    rw [ht, hc, he]
    rw [if_neg (by rw [← he]; exact hemp), if_neg (by rw [← he]; exact hemp)]
    rw [List.get?_map]
    cases h1 : rv.t.get? (rv.e + 1).toNat with
    | none =>
      cases h2 : rv.c.get? rv.e.toNat <;> simp
    | some tv =>
      cases h2 : rv.c.get? rv.e.toNat with
      | none => simp
      | some cv =>
        simp only [Option.map_some', Option.some.injEq]
        ring

/-- C5 amended: negating the time axis (`start ← −start − duration`) and
swapping Timeline↔RevTimeline yields mirrored structures after any
sequence of `schedule_task` calls — negated time points, identical
capacities, map, envelope and union-find — and mirrored completion-time
readings once any task is scheduled. The pushes themselves are NOT
identical in general: the empty-envelope readings differ (`0` versus
`t[0]`), which is exactly what the counterexample exploits. -/
theorem C5_mirror_timelines (args : List ArgTaskDisj) (a : Assignments) (σ : List TaskDisj) :
    MirrorO (newSchedSeqF (mkTasks args) (negAssign (mkTasks args) a) σ)
      (newSchedSeqR (mkTasks args) a σ) ∧
    readsMirror (newSchedSeqF (mkTasks args) (negAssign (mkTasks args) a) σ)
      (newSchedSeqR (mkTasks args) a σ) := by
  have hnew := Timeline_new_mirror args a
  unfold newSchedSeqF newSchedSeqR
  cases h1 : Timeline.new (mkTasks args) (negAssign (mkTasks args) a) with
  | none =>
    cases h2 : RevTimeline.new (mkTasks args) a with
    | none => exact ⟨trivial, trivial⟩
    | some rv => rw [h1, h2] at hnew; exact absurd hnew (by simp [MirrorO])
  | some fw =>
    cases h2 : RevTimeline.new (mkTasks args) a with
    | none => rw [h1, h2] at hnew; exact absurd hnew (by simp [MirrorO])
    | some rv =>
      rw [h1, h2] at hnew
      have hseq := schedSeq_mirror σ fw rv hnew
      show MirrorO (schedSeqF fw σ) (schedSeqR rv σ) ∧
        readsMirror (schedSeqF fw σ) (schedSeqR rv σ)
      cases hF : schedSeqF fw σ with
      | none =>
        cases hR : schedSeqR rv σ with
        | none => exact ⟨trivial, trivial⟩
        | some rv' => rw [hF, hR] at hseq; exact absurd hseq (by simp [MirrorO])
      | some fw' =>
        cases hR : schedSeqR rv σ with
        | none => rw [hF, hR] at hseq; exact absurd hseq (by simp [MirrorO])
        | some rv' =>
          rw [hF, hR] at hseq
          exact ⟨hseq, reads_of_mirror fw' rv' hseq⟩

theorem findAux_ok :
    ∀ (fuel : Nat) (s : UnionFind) (x : Nat),
      (∀ j p, s.parent.get? j = some p → p = j ∨ (j < p ∧ p < s.parent.length)) →
      (∀ j p, j + 1 < s.parent.length → s.parent.get? j = some p → p + 1 < s.parent.length) →
      x < s.parent.length → s.parent.length - x ≤ fuel →
      ∃ r s', UnionFind.findAux fuel s x = some (r, s') ∧
        x ≤ r ∧ r < s.parent.length ∧
        s.parent.get? r = some r ∧ s'.parent.get? r = some r ∧
        s'.parent.length = s.parent.length ∧
        (∀ j p, s'.parent.get? j = some p → p = j ∨ (j < p ∧ p < s'.parent.length)) ∧
        (∀ j p, j + 1 < s'.parent.length → s'.parent.get? j = some p → p + 1 < s'.parent.length) ∧
        (∀ j, s'.parent.get? j = some j ↔ s.parent.get? j = some j) ∧
        (x + 1 < s.parent.length → r + 1 < s.parent.length) := by
  intro fuel
  induction fuel with
  | zero => intro s x _ _ hx hf; omega
  | succ fuel ih =>
    intro s x hb hc hx hf
    have hget : ∃ p, s.parent.get? x = some p := by
      rw [List.get?_eq_getElem?]
      exact ⟨s.parent[x], List.getElem?_eq_getElem hx⟩
    obtain ⟨p, hp⟩ := hget
    unfold UnionFind.findAux
    rw [hp]
    dsimp only
    by_cases hpx : p = x
    · subst hpx
      rw [if_pos rfl]
      exact ⟨p, s, rfl, le_refl p, hx, hp, hp, rfl, hb, hc, fun j => Iff.rfl,
        fun hxx => hc p p hxx hp⟩
    · rw [if_neg hpx]
      have hrange : x < p ∧ p < s.parent.length := by
        rcases hb x p hp with heq | hr
        · exact absurd heq hpx
        · exact hr
      obtain ⟨r, s2, hrec, hpr, hrlen, hroot, hroot2, hlen2, hb2, hc2, hroots2, hcr⟩ :=
        ih s p hb hc hrange.2 (by omega)
      rw [hrec]
      refine ⟨r, ⟨s2.parent.set x r, s2.n⟩, rfl, by omega, hrlen, hroot, ?_, ?_, ?_, ?_, ?_, ?_⟩
      · show (s2.parent.set x r).get? r = some r
        rw [List.get?_eq_getElem?, List.getElem?_set_ne (by omega)]
        rw [List.get?_eq_getElem?] at hroot2
        exact hroot2
      · show (s2.parent.set x r).length = s.parent.length
        rw [List.length_set]; exact hlen2
      · intro j q hq
        show q = j ∨ (j < q ∧ q < (s2.parent.set x r).length)
        rw [List.length_set, hlen2]
        by_cases hjx : j = x
        · subst hjx
          rw [List.get?_eq_getElem?, List.getElem?_set_self (by rw [hlen2]; omega)] at hq
          cases hq
          right; exact ⟨by omega, hrlen⟩
        · rw [List.get?_eq_getElem?, List.getElem?_set_ne (fun hh => hjx hh.symm)] at hq
          rw [← List.get?_eq_getElem?] at hq
          have := hb2 j q hq
          rw [hlen2] at this
          exact this
      · intro j q hjl hq
        rw [List.length_set, hlen2] at hjl ⊢
        by_cases hjx : j = x
        · subst hjx
          rw [List.get?_eq_getElem?, List.getElem?_set_self (by rw [hlen2]; omega)] at hq
          cases hq
          have hpl : p + 1 < s.parent.length := hc j p hjl hp
          exact hcr hpl
        · rw [List.get?_eq_getElem?, List.getElem?_set_ne (fun hh => hjx hh.symm)] at hq
          rw [← List.get?_eq_getElem?] at hq
          have := hc2 j q (by rw [hlen2]; exact hjl) hq
          rw [hlen2] at this
          exact this
      · intro j
        by_cases hjx : j = x
        · subst hjx
          constructor
          · intro hj
            rw [List.get?_eq_getElem?, List.getElem?_set_self (by rw [hlen2]; omega)] at hj
            cases hj
            omega
          · intro hj
            rw [hj] at hp
            cases hp
            exact absurd rfl hpx
        · rw [List.get?_eq_getElem?, List.getElem?_set_ne (fun hh => hjx hh.symm),
            ← List.get?_eq_getElem?]
          exact hroots2 j
      · intro hxx
        exact hcr (hc x p hxx hp)

theorem getD_set_self (l : List Int) (k : Nat) (v : Int) (h : k < l.length) :
    (l.set k v).getD k 0 = v := by
  simp [List.getD_eq_get?, List.get?_eq_getElem?, List.getElem?_set_self h]

theorem getD_set_ne (l : List Int) (k j : Nat) (v : Int) (h : j ≠ k) :
    (l.set k v).getD j 0 = l.getD j 0 := by
  simp [List.getD_eq_get?, List.get?_eq_getElem?, List.getElem?_set_ne (fun hh => h hh.symm)]

theorem get?_of_lt (l : List Int) (k : Nat) (h : k < l.length) :
    l.get? k = some (l.getD k 0) := by
  rw [List.get?_eq_getElem?, List.getElem?_eq_getElem h]
  simp [List.getD_eq_get?, List.get?_eq_getElem?, List.getElem?_eq_getElem h]

theorem findAux_root (fuel : Nat) (s : UnionFind) (x : Nat)
    (hx : s.parent.get? x = some x) :
    UnionFind.findAux (fuel + 1) s x = some (x, s) := by
  unfold UnionFind.findAux
  rw [hx]
  dsimp only
  rw [if_pos rfl]

theorem find_root (s : UnionFind) (x : Nat) (hx : s.parent.get? x = some x) :
    s.find x = some (x, s) :=
  findAux_root s.parent.length s x hx

set_option maxHeartbeats 1000000 in
theorem pour_ok :
    ∀ (fuel : Nat) (rho : Int) (k : Nat) (c : List Int) (s : UnionFind)
      (t : List Int) (B : Int),
      PourInv t c s B →
      s.parent.get? k = some k → k < c.length →
      0 ≤ rho → rho ≤ B → rho.toNat < fuel →
      ∃ k' c' s', scheduleLoop fuel rho k c s = some (k', c', s') ∧
        PourInv t c' s' (B - rho) ∧ c'.length = c.length ∧
        s'.parent.get? k' = some k' ∧ k' < c'.length ∧ k ≤ k' := by
  intro fuel
  induction fuel with
  | zero => intro rho k c s t B _ _ _ _ _ hfu; omega
  | succ fuel ih =>
    intro rho k c s t B hinv hkroot hkc hrho0 hrhoB hfu
    obtain ⟨hslen, hclen, hb, hcc, hf, hbud⟩ := hinv
    by_cases hrho : rho > 0
    · have hck : c.get? k = some (c.getD k 0) := get?_of_lt c k hkc
      set ck := c.getD k 0 with hckdef
      have hckpos : 0 < ck := hf k hkc hkroot
      unfold scheduleLoop
      rw [if_pos hrho, hck]
      dsimp only
      set delta := min ck rho with hdelta
      have hdelta1 : 1 ≤ delta := by omega
      have hdeltarho : delta ≤ rho := by omega
      set c' := c.set k (ck - delta) with hc'
      have hc'len : c'.length = c.length := by rw [hc']; exact List.length_set c k _
      have hc'k : c'.getD k 0 = ck - delta := getD_set_self c k _ hkc
      have hc'ne : ∀ j, j ≠ k → c'.getD j 0 = c.getD j 0 := fun j hj => getD_set_ne c k j _ hj
      by_cases hdr : ck - delta = 0
      · rw [if_pos hdr]
        have hksent : k < c.length - 1 := by
          by_contra hle
          have hkeq : k = c.length - 1 := by omega
          have : B < ck := by rw [hckdef, hkeq]; exact hbud
          omega
        have hk1len : k + 1 < s.parent.length := by omega
        obtain ⟨ry, s2, hfind2, hry1, hrylen, hryroot, hryroot2, hs2len, hb2, hc2, hroots2, hrysm⟩ :=
          findAux_ok (s.parent.length + 1) s (k + 1) hb hcc hk1len (by omega)
        have hrysmall : ry + 1 < s.parent.length := hrysm (by omega)
        have hun : s.union k (k + 1) = some (true, ⟨s2.parent.set k ry, s2.n⟩) := by
          unfold UnionFind.union
          rw [find_root s k hkroot]
          show (match s.find (k + 1) with
            | none => none
            | some (ry, uf2) =>
              if k = ry then some (false, uf2) else
                some (true, ⟨uf2.parent.set k ry, uf2.n⟩)) = _
          rw [show s.find (k + 1) = some (ry, s2) from hfind2]
          dsimp only
          rw [if_neg (by omega)]
        rw [hun]
        dsimp only
        set s3 : UnionFind := ⟨s2.parent.set k ry, s2.n⟩ with hs3
        have hs3len : s3.parent.length = s.parent.length := by
          rw [hs3]; show (s2.parent.set k ry).length = _
          rw [List.length_set]; exact hs2len
        have hs3get_ne : ∀ j, j ≠ k → s3.parent.get? j = s2.parent.get? j := by
          intro j hj
          show (s2.parent.set k ry).get? j = _
          rw [List.get?_eq_getElem?, List.getElem?_set_ne (fun hh => hj hh.symm),
            ← List.get?_eq_getElem?]
        have hs3get_k : s3.parent.get? k = some ry := by
          show (s2.parent.set k ry).get? k = some ry
          rw [List.get?_eq_getElem?, List.getElem?_set_self (by rw [hs2len]; omega)]
        have hb3 : ∀ j p, s3.parent.get? j = some p →
            p = j ∨ (j < p ∧ p < s3.parent.length) := by
          intro j p hp
          rw [hs3len]
          by_cases hj : j = k
          · subst hj
            rw [hs3get_k] at hp
            cases hp
            right; omega
          · rw [hs3get_ne j hj] at hp
            have := hb2 j p hp
            rw [hs2len] at this
            exact this
        have hc3 : ∀ j p, j + 1 < s3.parent.length → s3.parent.get? j = some p →
            p + 1 < s3.parent.length := by
          intro j p hjl hp
          rw [hs3len] at hjl ⊢
          by_cases hj : j = k
          · subst hj
            rw [hs3get_k] at hp
            cases hp
            exact hrysmall
          · rw [hs3get_ne j hj] at hp
            have := hc2 j p (by rw [hs2len]; exact hjl) hp
            rw [hs2len] at this
            exact this
        obtain ⟨r4, s4, hfind4, hr4ge, hr4len, hr4root3, hr4root4, hs4len, hb4, hc4, hroots4, hr4sm⟩ :=
          findAux_ok (s3.parent.length + 1) s3 k hb3 hc3 (by omega) (by omega)
        have hfind4' : s3.find k = some (r4, s4) := hfind4
        rw [hfind4']
        dsimp only
        have hr4k : r4 ≠ k := by
          intro heq
          rw [heq, hs3get_k] at hr4root3
          cases hr4root3
          omega
        have hr4small : r4 + 1 < s.parent.length := by
          have := hr4sm (by rw [hs3len]; omega)
          rw [hs3len] at this
          exact this
        have hr4root_s : s.parent.get? r4 = some r4 := by
          have h1 : s2.parent.get? r4 = some r4 := by
            rw [← hs3get_ne r4 hr4k]
            exact hr4root3
          exact (hroots2 r4).mp h1
        have hr4c : r4 < c'.length := by rw [hc'len]; omega
        have hinv4 : PourInv t c' s4 (B - delta) := by
          refine ⟨by rw [hs4len, hs3len, hslen], by rw [hc'len]; exact hclen, hb4, hc4, ?_, ?_⟩
          · intro j hj hjroot
            have hjs3 : s3.parent.get? j = some j := (hroots4 j).mp hjroot
            have hjk : j ≠ k := by
              intro heq
              rw [heq, hs3get_k] at hjs3
              cases hjs3
              omega
            have hjs : s.parent.get? j = some j := by
              rw [hs3get_ne j hjk] at hjs3
              exact (hroots2 j).mp hjs3
            rw [hc'ne j hjk]
            exact hf j (by rw [hc'len] at hj; exact hj) hjs
          · rw [hc'ne (c'.length - 1) (by omega), hc'len]
            omega
        have hrec := ih (rho - delta) r4 c' s4 t (B - delta) hinv4 hr4root4
          hr4c (by omega) (by omega) (by omega)
        obtain ⟨k', c'', s'', hloop, hinv', hlen', hroot', hksm', hge'⟩ := hrec
        refine ⟨k', c'', s'', hloop, ?_, by rw [hlen', hc'len], hroot', hksm', by omega⟩
        have : B - delta - (rho - delta) = B - rho := by ring
        rwa [this] at hinv'
      · rw [if_neg hdr]
        have hdeq : delta = rho := by omega
        have hinv' : PourInv t c' s (B - rho) := by
          refine ⟨hslen, by rw [hc'len]; exact hclen, hb, hcc, ?_, ?_⟩
          · intro j hj hjroot
            by_cases hjk : j = k
            · subst hjk
              rw [hc'k]
              omega
            · rw [hc'ne j hjk]
              exact hf j (by rw [hc'len] at hj; exact hj) hjroot
          · by_cases hks : k = c.length - 1
            · rw [hc'len, ← hks, hc'k]
              have : B < ck := by rw [hckdef, hks]; exact hbud
              omega
            · rw [hc'len, hc'ne (c.length - 1) (fun hh => hks hh.symm)]
              omega
        have hrec := ih (rho - delta) k c' s t (B - rho) hinv' hkroot
          (by rw [hc'len]; exact hkc) (by omega) (by omega) (by omega)
        obtain ⟨k', c'', s'', hloop, hinv'', hlen', hroot', hksm', hge'⟩ := hrec
        refine ⟨k', c'', s'', hloop, ?_, by rw [hlen', hc'len], hroot', hksm', hge'⟩
        have : B - rho - (rho - delta) = B - rho := by rw [hdeq]; ring
        rwa [this] at hinv''
    · have hrz : rho = 0 := by omega
      unfold scheduleLoop
      rw [if_neg hrho]
      exact ⟨k, c, s, rfl, by rw [hrz, sub_zero]; exact ⟨hslen, hclen, hb, hcc, hf, hbud⟩,
        rfl, hkroot, hkc, le_refl k⟩

theorem findAux_one_step (fuel : Nat) (s : UnionFind) (x p : Nat)
    (hx : s.parent.get? x = some p) (hpx : ¬p = x)
    (hp : s.parent.get? p = some p) (_hxlen : x < s.parent.length) :
    UnionFind.findAux (fuel + 2) s x = some (p, ⟨s.parent.set x p, s.n⟩) := by
  unfold UnionFind.findAux
  rw [hx]
  dsimp only
  rw [if_neg hpx, findAux_root fuel s p hp]

theorem getD_mono (t : List Int) (k : Nat)
    (hmono : ∀ j, k ≤ j → j + 1 < t.length → t.getD j 0 < t.getD (j + 1) 0) :
    ∀ i j, k ≤ i → i < j → j < t.length → t.getD i 0 < t.getD j 0 := by
  intro i j hki hij hjl
  induction j with
  | zero => omega
  | succ j ihj =>
    by_cases hj : i = j
    · subst hj
      exact hmono i hki hjl
    · have h1 : t.getD i 0 < t.getD j 0 := ihj (by omega) (by omega)
      have h2 : t.getD j 0 < t.getD (j + 1) 0 := hmono j (by omega) hjl
      omega

set_option maxHeartbeats 1000000 in
theorem pour_fresh_value :
    ∀ (fuel : Nat) (rho phi : Int) (k : Nat) (c : List Int) (s : UnionFind) (t : List Int),
      s.parent.length = t.length → c.length + 1 = t.length →
      (∀ j, k ≤ j → j < s.parent.length → s.parent.get? j = some j) →
      k < c.length →
      (∀ j, k < j → j < c.length → c.getD j 0 = t.getD (j + 1) 0 - t.getD j 0) →
      c.getD k 0 = t.getD (k + 1) 0 - phi →
      phi < t.getD (k + 1) 0 →
      (∀ i j, k ≤ i → i < j → j < t.length → t.getD i 0 < t.getD j 0) →
      phi + rho < t.getD (t.length - 1) 0 →
      0 ≤ rho → rho.toNat < fuel →
      ∃ k' c' s', scheduleLoop fuel rho k c s = some (k', c', s') ∧
        k' < c.length ∧ c'.length = c.length ∧
        t.getD (k' + 1) 0 - c'.getD k' 0 = phi + rho := by
  intro fuel
  induction fuel with
  | zero => intro rho phi k c s t _ _ _ _ _ _ _ _ _ _ hfu; omega
  | succ fuel ih =>
    intro rho phi k c s t hslen hclen hid hkc hfull hck hphi hmono hroom hrho0 hfu
    by_cases hrho : rho > 0
    · have hget : c.get? k = some (c.getD k 0) := get?_of_lt c k hkc
      set ck := c.getD k 0 with hckdef
      have hckpos : 0 < ck := by omega
      unfold scheduleLoop
      rw [if_pos hrho, hget]
      dsimp only
      set delta := min ck rho with hdelta
      set c' := c.set k (ck - delta) with hc'
      have hc'len : c'.length = c.length := List.length_set c k _
      have hc'k : c'.getD k 0 = ck - delta := getD_set_self c k _ hkc
      have hc'ne : ∀ j, j ≠ k → c'.getD j 0 = c.getD j 0 := fun j hj => getD_set_ne c k j _ hj
      by_cases hdr : ck - delta = 0
      · rw [if_pos hdr]
        have hksent : k + 1 < c.length := by
          by_contra hle
          have hkeq : k + 1 = t.length - 1 := by omega
          have ht1 : t.getD (k + 1) 0 ≤ phi + rho := by omega
          rw [hkeq] at ht1
          omega
        have hkroot : s.parent.get? k = some k := hid k (le_refl k) (by omega)
        have hk1root : s.parent.get? (k + 1) = some (k + 1) := hid (k + 1) (by omega) (by omega)
        have hun : s.union k (k + 1) =
            some (true, ⟨s.parent.set k (k + 1), s.n⟩) := by
          unfold UnionFind.union
          rw [find_root s k hkroot]
          show (match s.find (k + 1) with
            | none => none
            | some (ry, uf2) =>
              if k = ry then some (false, uf2) else
                some (true, ⟨uf2.parent.set k ry, uf2.n⟩)) = _
          rw [find_root s (k + 1) hk1root]
          dsimp only
          rw [if_neg (by omega)]
        rw [hun]
        dsimp only
        set s3 : UnionFind := ⟨s.parent.set k (k + 1), s.n⟩ with hs3
        have hs3len : s3.parent.length = s.parent.length := List.length_set _ _ _
        have hs3k : s3.parent.get? k = some (k + 1) := by
          show (s.parent.set k (k + 1)).get? k = _
          rw [List.get?_eq_getElem?, List.getElem?_set_self (by omega)]
        have hs3ne : ∀ j, j ≠ k → s3.parent.get? j = s.parent.get? j := by
          intro j hj
          show (s.parent.set k (k + 1)).get? j = _
          rw [List.get?_eq_getElem?, List.getElem?_set_ne (fun hh => hj hh.symm),
            ← List.get?_eq_getElem?]
        have hs3k1 : s3.parent.get? (k + 1) = some (k + 1) := by
          rw [hs3ne (k + 1) (by omega)]; exact hk1root
        have hfind3 : s3.find k = some (k + 1, ⟨s3.parent.set k (k + 1), s3.n⟩) := by
          show UnionFind.findAux (s3.parent.length + 1) s3 k = _
          have hlen2 : s3.parent.length + 1 = (s3.parent.length - 1) + 2 := by
            rw [hs3len]; omega
          rw [hlen2]
          exact findAux_one_step _ s3 k (k + 1) hs3k (by omega) hs3k1 (by rw [hs3len]; omega)
        rw [hfind3]
        dsimp only
        set s4 : UnionFind := ⟨s3.parent.set k (k + 1), s3.n⟩ with hs4
        have hs4parent : s4.parent = s.parent.set k (k + 1) := by
          rw [hs4, hs3]
          show (s.parent.set k (k + 1)).set k (k + 1) = _
          rw [List.set_set]
        have hs4len : s4.parent.length = s.parent.length := by
          rw [hs4parent]; exact List.length_set _ _ _
        have hid4 : ∀ j, k + 1 ≤ j → j < s4.parent.length → s4.parent.get? j = some j := by
          intro j hj hjl
          rw [hs4parent, List.get?_eq_getElem?, List.getElem?_set_ne (by omega),
            ← List.get?_eq_getElem?]
          exact hid j (by omega) (by rwa [hs4len] at hjl)
        have hdeq : delta = ck := by omega
        have hrec := ih (rho - delta) (t.getD (k + 1) 0) (k + 1) c' s4 t
          (by rw [hs4len]; exact hslen) (by rw [hc'len]; exact hclen)
          hid4 (by omega)
          (fun j hj hjl => by
            rw [hc'ne j (by omega)]
            exact hfull j (by omega) (by rwa [hc'len] at hjl))
          (by
            rw [hc'ne (k + 1) (by omega)]
            exact hfull (k + 1) (by omega) hksent)
          (by
            have := hmono (k + 1) (k + 2) (by omega) (by omega) (by omega)
            exact this)
          (fun i j hi hij hjl => hmono i j (by omega) hij hjl)
          (by omega)
          (by omega) (by omega)
        obtain ⟨k', c'', s'', hloop, hk', hlen'', hval⟩ := hrec
        refine ⟨k', c'', s'', hloop, by rwa [hc'len] at hk', by rw [hlen'', hc'len], ?_⟩
        rw [hval]
        omega
      · rw [if_neg hdr]
        have hdeq : delta = rho := by omega
        have hrec := ih (rho - delta) (phi + rho) k c' s t hslen (by rw [hc'len]; exact hclen)
          hid (by rw [hc'len]; exact hkc)
          (fun j hj hjl => by
            rw [hc'ne j (by omega)]
            exact hfull j hj (by rwa [hc'len] at hjl))
          (by rw [hc'k]; omega)
          (by omega)
          hmono
          (by omega)
          (by omega) (by omega)
        obtain ⟨k', c'', s'', hloop, hk', hlen'', hval⟩ := hrec
        refine ⟨k', c'', s'', hloop, by rwa [hc'len] at hk', by rw [hlen'', hc'len], ?_⟩
        rw [hval]
        omega
    · have hrz : rho = 0 := by omega
      unfold scheduleLoop
      rw [if_neg hrho]
      exact ⟨k, c, s, rfl, hkc, rfl, by omega⟩

theorem zip_diff_getD (t : List Int) (j : Nat) (h : j + 1 < t.length) :
    (List.zipWith (fun x y => y - x) t t.tail).getD j 0 =
      t.getD (j + 1) 0 - t.getD j 0 := by
  have h1 : t.get? j = some (t.getD j 0) := get?_of_lt t j (by omega)
  have h2 : t.tail.get? j = some (t.getD (j + 1) 0) := by
    rw [List.get?_eq_getElem?, List.getElem?_tail]
    rw [List.get?_eq_getElem?] at *
    have := get?_of_lt t (j + 1) h
    rw [List.get?_eq_getElem?] at this
    exact this
  rw [List.getD_eq_get?, List.zipWith_get?, h1, h2]
  rfl

theorem zip_diff_length (t : List Int) :
    (List.zipWith (fun x y => y - x) t t.tail).length = t.length - 1 := by
  rw [List.length_zipWith, List.length_tail]
  omega

theorem chain'_getD (t : List Int) (h : List.Chain' (· < ·) t) :
    ∀ j, j + 1 < t.length → t.getD j 0 < t.getD (j + 1) 0 := by
  intro j hj
  rw [List.chain'_iff_get] at h
  have := h j (by omega)
  have e1 : t.get ⟨j, by omega⟩ = t.getD j 0 := by
    have h1 := get?_of_lt t j (by omega)
    rw [List.get?_eq_get (by omega : j < t.length)] at h1
    exact Option.some.inj h1
  have e2 : t.get ⟨j + 1, by omega⟩ = t.getD (j + 1) 0 := by
    have h1 := get?_of_lt t (j + 1) hj
    rw [List.get?_eq_get hj] at h1
    exact Option.some.inj h1
  rw [e1, e2] at this
  exact this

set_option maxHeartbeats 1600000 in
theorem buildTM_spec (key : TaskDisj → Int) :
    ∀ (l : List TaskDisj) (t : List Int) (m : List Nat),
      List.Sorted (fun x y => key x ≤ key y) l →
      List.Chain' (· < ·) t →
      (∀ x ∈ l, ∀ v, t.getLast? = some v → v ≤ key x) →
      (∀ x ∈ l, x.localId < m.length) →
      (l.map (·.localId)).Nodup →
      List.Chain' (· < ·) (buildTM key l t m).1 ∧
      (buildTM key l t m).2.length = m.length ∧
      (∃ s, (buildTM key l t m).1 = t ++ s) ∧
      (∀ i, i ∉ l.map (·.localId) → (buildTM key l t m).2.get? i = m.get? i) ∧
      (∀ x ∈ l, ∃ j, (buildTM key l t m).2.get? x.localId = some j ∧
        j < (buildTM key l t m).1.length ∧ (buildTM key l t m).1.getD j 0 = key x) ∧
      (∀ v, (buildTM key l t m).1.getLast? = some v →
        t.getLast? = some v ∨ ∃ x ∈ l, v = key x) := by
  intro l
  induction l with
  | nil =>
    intro t m _ hch _ _ _
    exact ⟨hch, rfl, ⟨[], by simp [buildTM]⟩, fun i _ => rfl, fun x hx => absurd hx (by simp),
      fun v hv => Or.inl hv⟩
  | cons task rest ih =>
    intro t m hsort hch hlast hid hnd
    obtain ⟨hhead, hsort'⟩ := List.sorted_cons.mp hsort
    have hndr : (rest.map (·.localId)).Nodup := by
      simp only [List.map_cons, List.nodup_cons] at hnd
      exact hnd.2
    have hidh : task.localId ∉ rest.map (·.localId) := by
      simp only [List.map_cons, List.nodup_cons] at hnd
      exact hnd.1
    simp only [buildTM]
    by_cases hc : t.getLast? = some (key task)
    · rw [if_pos hc]
      set m' := m.set task.localId (t.length - 1) with hm'
      have hm'len : m'.length = m.length := List.length_set m _ _
      have ht0 : 0 < t.length := by
        cases t with
        | nil => cases hc
        | cons a b => simp
      obtain ⟨hch2, hlen2, hpre2, hpres2, htask2, hlast2⟩ :=
        ih t m' hsort' hch
          (fun x hx v hv => le_trans (hlast task (by simp) v hv) (hhead x hx))
          (fun x hx => by rw [hm'len]; exact hid x (by simp [hx]))
          hndr
      refine ⟨hch2, by rw [hlen2, hm'len], hpre2, ?_, ?_, ?_⟩
      · intro i hi
        simp only [List.map_cons, List.mem_cons] at hi
        push_neg at hi
        rw [hpres2 i hi.2, hm']
        rw [List.get?_eq_getElem?, List.getElem?_set_ne (fun hh => hi.1 hh.symm),
          ← List.get?_eq_getElem?]
      · intro x hx
        rcases List.mem_cons.mp hx with hxt | hxr
        · subst hxt
          refine ⟨t.length - 1, ?_, ?_, ?_⟩
          · rw [hpres2 x.localId hidh, hm', List.get?_eq_getElem?,
              List.getElem?_set_self (hid x (by simp))]
          · obtain ⟨s, hs⟩ := hpre2
            rw [hs, List.length_append]
            omega
          · obtain ⟨s, hs⟩ := hpre2
            rw [hs, List.getD_eq_get?, List.get?_append (by omega), ← List.getD_eq_get?]
            rw [List.getLast?_eq_getElem?] at hc
            rw [List.getD_eq_get?, List.get?_eq_getElem?, hc]
            rfl
        · exact htask2 x hxr
      · intro v hv
        rcases hlast2 v hv with h1 | h2
        · exact Or.inl h1
        · obtain ⟨x, hx, hxv⟩ := h2
          exact Or.inr ⟨x, by simp [hx], hxv⟩
    · rw [if_neg hc]
      set t' := t ++ [key task] with ht'
      set m' := m.set task.localId (t'.length - 1) with hm'
      have ht'len : t'.length = t.length + 1 := by rw [ht', List.length_append]; rfl
      have hm'len : m'.length = m.length := List.length_set m _ _
      have hch' : List.Chain' (· < ·) t' := by
        rw [ht', List.chain'_append]
        refine ⟨hch, List.chain'_singleton _, ?_⟩
        intro x hx y hy
        simp only [List.head?_cons, Option.mem_def, Option.some.injEq] at hy
        subst hy
        have hxle := hlast task (by simp) x hx
        have hxne : x ≠ key task := fun hh => hc (by rw [← hh]; exact hx)
        omega
      have hlast' : t'.getLast? = some (key task) := by
        rw [ht']; exact List.getLast?_concat t
      obtain ⟨hch2, hlen2, hpre2, hpres2, htask2, hlast2⟩ :=
        ih t' m' hsort' hch'
          (fun x hx v hv => by
            rw [hlast'] at hv
            cases hv
            exact hhead x hx)
          (fun x hx => by rw [hm'len]; exact hid x (by simp [hx]))
          hndr
      refine ⟨hch2, by rw [hlen2, hm'len], ?_, ?_, ?_, ?_⟩
      · obtain ⟨s, hs⟩ := hpre2
        exact ⟨[key task] ++ s, by rw [hs, ht', List.append_assoc]⟩
      · intro i hi
        simp only [List.map_cons, List.mem_cons] at hi
        push_neg at hi
        rw [hpres2 i hi.2, hm']
        rw [List.get?_eq_getElem?, List.getElem?_set_ne (fun hh => hi.1 hh.symm),
          ← List.get?_eq_getElem?]
      · intro x hx
        rcases List.mem_cons.mp hx with hxt | hxr
        · subst hxt
          refine ⟨t.length, ?_, ?_, ?_⟩
          · rw [hpres2 x.localId hidh, hm', List.get?_eq_getElem?]
            have : t'.length - 1 = t.length := by omega
            rw [this, List.getElem?_set_self (hid x (by simp))]
          · obtain ⟨s, hs⟩ := hpre2
            rw [hs, List.length_append, ht'len]
            omega
          · obtain ⟨s, hs⟩ := hpre2
            rw [hs, ht', List.getD_eq_get?, List.append_assoc,
              List.get?_append_right (le_refl t.length)]
            simp
        · exact htask2 x hxr
      · intro v hv
        rcases hlast2 v hv with h1 | h2
        · rw [hlast'] at h1
          cases h1
          exact Or.inr ⟨task, by simp, rfl⟩
        · obtain ⟨x, hx, hxv⟩ := h2
          exact Or.inr ⟨x, by simp [hx], hxv⟩

theorem max?_spec : ∀ (l : List Int) (v : Int), l.max? = some v →
    v ∈ l ∧ ∀ b ∈ l, b ≤ v
  | [], v, h => by cases h
  | x :: xs, v, h => by
    rw [List.max?_cons] at h
    cases h
    cases hxs : xs.max? with
    | none =>
      have hxe : xs = [] := by
        cases xs with
        | nil => rfl
        | cons y ys => rw [List.max?_cons] at hxs; cases hxs
      subst hxe
      simp
    | some m =>
      obtain ⟨hm1, hm2⟩ := max?_spec xs m hxs
      constructor
      · simp only [Option.elim_some]
        rcases max_choice x m with hc | hc <;> rw [hc]
        · simp
        · simp [hm1]
      · intro b hb
        simp only [Option.elim_some]
        rcases List.mem_cons.mp hb with hb | hb
        · subst hb; omega
        · have := hm2 b hb
          omega

theorem sumDur_nonneg : ∀ (σ : List TaskDisj), (∀ x ∈ σ, (1:Int) ≤ x.duration) →
    0 ≤ sumDur σ
  | [], _ => le_refl 0
  | x :: xs, h => by
    have h1 : (1:Int) ≤ x.duration := h x (by simp)
    have h2 := sumDur_nonneg xs (fun y hy => h y (by simp [hy]))
    simp only [sumDur, List.map_cons, List.sum_cons] at *
    omega

theorem mkTasks_length (args : List ArgTaskDisj) : (mkTasks args).length = args.length := by
  simp [mkTasks]

theorem mkTasks_id_lt (args : List ArgTaskDisj) :
    ∀ tk ∈ mkTasks args, tk.localId < args.length := by
  intro tk htk
  obtain ⟨n, hn⟩ := List.mem_iff_get?.mp htk
  rw [mkTasks_get? args n] at hn
  cases ha : args.get? n with
  | none => rw [ha] at hn; cases hn
  | some arg =>
    rw [ha] at hn
    simp only [Option.map_some', Option.some.injEq] at hn
    subst hn
    exact (List.get?_eq_some.mp ha).1

theorem mkTasks_ids (args : List ArgTaskDisj) :
    (mkTasks args).map (·.localId) = List.range args.length := by
  unfold mkTasks
  rw [List.map_map, ← List.enum_map_fst args]
  rfl

set_option maxHeartbeats 1600000 in
theorem Timeline_new_spec (args : List ArgTaskDisj) (a : Assignments)
    (hargs : args ≠ [])
    (hdur : ∀ tk ∈ mkTasks args, 1 ≤ tk.duration)
    (hwf : ∀ tk ∈ mkTasks args, a.lb tk.localId ≤ a.ub tk.localId) :
    ∃ tl, Timeline.new (mkTasks args) a = some tl ∧
      List.Chain' (· < ·) tl.t ∧
      tl.c = List.zipWith (fun x y => y - x) tl.t tl.t.tail ∧
      tl.s = UnionFind.new tl.t.length ∧
      tl.e = -1 ∧
      2 ≤ tl.t.length ∧
      (∀ tk ∈ mkTasks args, ∃ j, tl.m.get? tk.localId = some j ∧ j + 1 < tl.t.length ∧
        tl.t.getD j 0 = tk.get_est a) ∧
      sumDur (mkTasks args) < tl.t.getD (tl.t.length - 1) 0 - tl.t.getD (tl.t.length - 2) 0 ∧
      (∀ tk ∈ mkTasks args, tk.get_est a + tk.duration < tl.t.getD (tl.t.length - 1) 0) := by
  haveI hto : IsTotal TaskDisj (fun x y => x.get_est a ≤ y.get_est a) :=
    ⟨fun x y => le_total _ _⟩
  haveI htr : IsTrans TaskDisj (fun x y => x.get_est a ≤ y.get_est a) :=
    ⟨fun x y z => le_trans⟩
  set tasks := mkTasks args with htasks
  set l := sortAscBy (fun tk => tk.get_est a) tasks with hl
  have hperm : l.Perm tasks := List.perm_insertionSort _ tasks
  have hmem : ∀ x, x ∈ l ↔ x ∈ tasks := fun x => hperm.mem_iff
  have hsorted : List.Sorted (fun x y => x.get_est a ≤ y.get_est a) l :=
    List.sorted_insertionSort _ tasks
  have hnd : (l.map (·.localId)).Nodup := by
    have h1 : ((l.map (·.localId)).Perm (tasks.map (·.localId))) := hperm.map _
    rw [h1.nodup_iff, htasks, mkTasks_ids]
    exact List.nodup_range args.length
  have hidlt : ∀ x ∈ l, x.localId < (List.replicate tasks.length 0).length := by
    intro x hx
    rw [List.length_replicate, htasks, mkTasks_length]
    exact mkTasks_id_lt args x (by rw [← htasks, ← hmem]; exact hx)
  obtain ⟨hch, hmlen, hpre, hpres, htask, hlast⟩ :=
    buildTM_spec (fun tk => tk.get_est a) l [] (List.replicate tasks.length 0)
      hsorted List.chain'_nil (fun x _ v hv => by cases hv) hidlt hnd
  have hne : tasks ≠ [] := by
    rw [htasks]
    intro hh
    apply hargs
    cases args with
    | nil => rfl
    | cons x xs => simp [mkTasks] at hh
  have hmax : ∃ mx, (tasks.map fun tk => tk.get_lct a).max? = some mx := by
    cases htt : tasks with
    | nil => exact absurd htt hne
    | cons x xs =>
      rw [List.map_cons, List.max?_cons]
      exact ⟨_, rfl⟩
  obtain ⟨mx, hmx⟩ := hmax
  obtain ⟨hmxmem, hmxub⟩ := max?_spec _ mx hmx
  have hlctle : ∀ tk ∈ tasks, tk.get_lct a ≤ mx := by
    intro tk htk
    exact hmxub _ (List.mem_map_of_mem _ htk)
  set t0 := (buildTM (fun tk => tk.get_est a) l [] (List.replicate tasks.length 0)).1 with ht0
  set D := sumDur tasks with hD
  have hDpos : 1 ≤ D := by
    cases htt : tasks with
    | nil => exact absurd htt hne
    | cons x xs =>
      have h1 : (1:Int) ≤ x.duration := hdur x (by rw [htasks] at htt ⊢; rw [htt]; simp)
      have h2 : 0 ≤ sumDur xs := sumDur_nonneg xs (fun y hy => hdur y (by rw [htasks] at htt ⊢; rw [htt]; simp [hy]))
      rw [hD, htt]
      simp only [sumDur, List.map_cons, List.sum_cons] at *
      omega
  have hDsum : (tasks.map fun tk => tk.duration).sum = D := rfl
  have ht0ne : t0 ≠ [] := by
    obtain ⟨x0, hx0⟩ := List.exists_mem_of_ne_nil tasks hne
    obtain ⟨j, _, hjlen, _⟩ := htask x0 ((hmem x0).mpr hx0)
    intro hh
    rw [hh] at hjlen
    simp at hjlen
  have hlastval : ∃ v, t0.getLast? = some v ∧ ∃ x ∈ tasks, v = x.get_est a := by
    cases htt : t0.getLast? with
    | none =>
      exfalso
      apply ht0ne
      cases hht : t0 with
      | nil => rfl
      | cons y ys =>
        rw [hht] at htt
        simp at htt
    | some v =>
      refine ⟨v, rfl, ?_⟩
      rcases hlast v htt with h1 | h2
      · cases h1
      · obtain ⟨x, hx, hxv⟩ := h2
        exact ⟨x, (hmem x).mp hx, hxv⟩
  obtain ⟨v0, hv0, x0, hx0, hv0x⟩ := hlastval
  have hestlt : ∀ tk ∈ tasks, tk.get_est a + tk.duration ≤ mx := by
    intro tk htk
    have h1 : tk.get_est a + tk.duration ≤ tk.get_lct a := by
      have := hwf tk htk
      simp only [TaskDisj.get_est, TaskDisj.get_lct]
      omega
    exact le_trans h1 (hlctle tk htk)
  have hv0lt : v0 < mx := by
    have h1 := hestlt x0 hx0
    have h2 := hdur x0 hx0
    omega
  refine ⟨⟨t0 ++ [mx + D],
      List.zipWith (fun x y => y - x) (t0 ++ [mx + D]) (t0 ++ [mx + D]).tail,
      (buildTM (fun tk => tk.get_est a) l [] (List.replicate tasks.length 0)).2,
      -1, UnionFind.new (t0 ++ [mx + D]).length⟩, ?_, ?_, rfl, rfl, rfl, ?_, ?_, ?_, ?_⟩
  · unfold Timeline.new
    dsimp only
    rw [hmx]
    dsimp only
    rfl
  · rw [List.chain'_append]
    refine ⟨hch, List.chain'_singleton _, ?_⟩
    intro x hx y hy
    simp only [List.head?_cons, Option.mem_def, Option.some.injEq] at hy
    subst hy
    rw [hv0] at hx
    cases hx
    omega
  · rw [List.length_append]
    have : 1 ≤ t0.length := by
      cases htt : t0 with
      | nil => exact absurd htt ht0ne
      | cons y ys => simp
    simp only [List.length_cons, List.length_nil]
    omega
  · intro tk htk
    obtain ⟨j, hj1, hj2, hj3⟩ := htask tk ((hmem tk).mpr htk)
    refine ⟨j, hj1, ?_, ?_⟩
    · rw [List.length_append]
      simp only [List.length_cons, List.length_nil]
      omega
    · rw [List.getD_eq_get?, List.get?_append hj2, ← List.getD_eq_get?, hj3]
  · have hlen : (t0 ++ [mx + D]).length = t0.length + 1 := by
      rw [List.length_append]; rfl
    rw [hlen]
    have e1 : (t0 ++ [mx + D]).getD (t0.length + 1 - 1) 0 = mx + D := by
      rw [List.getD_eq_get?]
      have : t0.length + 1 - 1 = t0.length := by omega
      rw [this, List.get?_append_right (le_refl _)]
      simp
    have e2 : (t0 ++ [mx + D]).getD (t0.length + 1 - 2) 0 = v0 := by
      have h1 : 1 ≤ t0.length := by
        cases htt : t0 with
        | nil => exact absurd htt ht0ne
        | cons y ys => simp
      have h2 : t0.get? (t0.length - 1) = some v0 := by
        rw [List.get?_eq_getElem?, ← List.getLast?_eq_getElem?]
        exact hv0
      have h3 : t0.length + 1 - 2 = t0.length - 1 := by omega
      rw [List.getD_eq_get?, h3, List.get?_append (by omega), h2]
      rfl
    rw [e1, e2]
    omega
  · intro tk htk
    have hlen : (t0 ++ [mx + D]).length = t0.length + 1 := by
      rw [List.length_append]; rfl
    rw [hlen]
    have e1 : (t0 ++ [mx + D]).getD (t0.length + 1 - 1) 0 = mx + D := by
      rw [List.getD_eq_get?]
      have : t0.length + 1 - 1 = t0.length := by omega
      rw [this, List.get?_append_right (le_refl _)]
      simp
    rw [e1]
    have := hestlt tk htk
    omega

theorem range_get?_eq (n j p : Nat) (h : (List.range n).get? j = some p) : p = j := by
  rw [List.get?_eq_getElem?] at h
  rcases Nat.lt_or_ge j n with hj | hj
  · rw [List.getElem?_range hj] at h
    exact (Option.some.inj h).symm
  · rw [List.getElem?_eq_none (by simpa using hj)] at h
    cases h

theorem fresh_pourInv (t : List Int) (B : Int)
    (hch : List.Chain' (· < ·) t) (hlen : 2 ≤ t.length)
    (hbud : B < t.getD (t.length - 1) 0 - t.getD (t.length - 2) 0) :
    PourInv t (List.zipWith (fun x y => y - x) t t.tail) (UnionFind.new t.length) B := by
  have hclen : (List.zipWith (fun x y => y - x) t t.tail).length = t.length - 1 :=
    zip_diff_length t
  refine ⟨by simp [UnionFind.new], by rw [hclen]; omega, ?_, ?_, ?_, ?_⟩
  · intro j p hp
    have := range_get?_eq t.length j p hp
    exact Or.inl this
  · intro j p hjl hp
    have := range_get?_eq t.length j p hp
    subst this
    simpa [UnionFind.new] using hjl
  · intro j hj _
    rw [hclen] at hj
    rw [zip_diff_getD t j (by omega)]
    have := chain'_getD t hch j (by omega)
    omega
  · rw [hclen]
    have h1 : t.length - 1 - 1 + 1 = t.length - 1 := by omega
    rw [zip_diff_getD t (t.length - 1 - 1) (by omega), h1]
    have h2 : t.length - 1 - 1 = t.length - 2 := by omega
    rw [h2]
    exact hbud

theorem schedule_task_ok (tl : Timeline) (task : TaskDisj) (t : List Int) (B : Int)
    (hinv : PourInv t tl.c tl.s B)
    (hm : ∃ mi, tl.m.get? task.localId = some mi ∧ mi < tl.c.length)
    (hdur : 1 ≤ task.duration) (hdB : task.duration ≤ B) :
    ∃ tl', tl.schedule_task task = some tl' ∧ tl'.t = tl.t ∧ tl'.m = tl.m ∧
      tl'.c.length = tl.c.length ∧ PourInv t tl'.c tl'.s (B - task.duration) := by
  obtain ⟨mi, hmi, hmic⟩ := hm
  obtain ⟨hslen, hclen, hb, hcc, hf, hbud⟩ := hinv
  unfold Timeline.schedule_task
  rw [hmi]
  dsimp only
  obtain ⟨k0, s0, hfind, hk0ge, hk0len, hk0root, hk0root0, hs0len, hb0, hc0, hroots0, hk0sm⟩ :=
    findAux_ok (tl.s.parent.length + 1) tl.s mi hb hcc (by omega) (by omega)
  have hfind' : tl.s.find mi = some (k0, s0) := hfind
  rw [hfind']
  dsimp only
  have hk0c : k0 < tl.c.length := by
    have := hk0sm (by omega)
    omega
  have hinv0 : PourInv t tl.c s0 B := by
    refine ⟨by rw [hs0len]; exact hslen, hclen, hb0, hc0, ?_, hbud⟩
    intro j hj hjroot
    exact hf j hj ((hroots0 j).mp hjroot)
  have hpour := pour_ok (task.duration.toNat + tl.c.length + 1) task.duration k0 tl.c s0 t B
    hinv0 hk0root0 hk0c (by omega) hdB (by omega)
  obtain ⟨k', c', s', hloop, hinv', hlen', hroot', hk'c, hge⟩ := hpour
  rw [hloop]
  dsimp only
  exact ⟨_, rfl, rfl, rfl, hlen', hinv'⟩

theorem schedSeq_ok : ∀ (σ : List TaskDisj) (tl : Timeline) (t : List Int) (B : Int),
    PourInv t tl.c tl.s B →
    (∀ task ∈ σ, 1 ≤ task.duration) →
    (∀ task ∈ σ, ∃ mi, tl.m.get? task.localId = some mi ∧ mi < tl.c.length) →
    sumDur σ ≤ B →
    ∃ tl', schedSeqF tl σ = some tl'
  | [], tl, t, B, _, _, _, _ => ⟨tl, rfl⟩
  | task :: rest, tl, t, B, hinv, hdur, hmm, hsum => by
    have hd1 : 1 ≤ task.duration := hdur task (by simp)
    have hrest0 : 0 ≤ sumDur rest := sumDur_nonneg rest (fun x hx => hdur x (by simp [hx]))
    have hsum' : task.duration + sumDur rest = sumDur (task :: rest) := by
      simp [sumDur]
    have hdB : task.duration ≤ B := by omega
    obtain ⟨tl1, hstep, hteq, hmeq, hceq, hinv1⟩ :=
      schedule_task_ok tl task t B hinv (hmm task (by simp)) hd1 hdB
    obtain ⟨tl', hrec⟩ := schedSeq_ok rest tl1 t (B - task.duration) hinv1
      (fun x hx => hdur x (by simp [hx]))
      (fun x hx => by
        rw [hmeq, hceq]
        exact hmm x (by simp [hx]))
      (by omega)
    refine ⟨tl', ?_⟩
    unfold schedSeqF at hrec ⊢
    rw [List.foldlM_cons, hstep]
    exact hrec

theorem sumDur_subperm (σ tasks : List TaskDisj) (h : σ.Subperm tasks)
    (hd : ∀ x ∈ tasks, (1:Int) ≤ x.duration) : sumDur σ ≤ sumDur tasks := by
  obtain ⟨l, hperm, hsub⟩ := h
  have h1 : sumDur σ = sumDur l := by
    unfold sumDur
    exact ((hperm.map (·.duration)).sum_eq).symm
  rw [h1]
  unfold sumDur
  exact List.Sublist.sum_le_sum (hsub.map _) (by
    intro x hx
    obtain ⟨y, hy, hyx⟩ := List.mem_map.mp hx
    have := hd y hy
    omega)

theorem newSchedSeqF_ok (args : List ArgTaskDisj) (a : Assignments) (σ : List TaskDisj)
    (hargs : args ≠ [])
    (hdur : ∀ tk ∈ mkTasks args, 1 ≤ tk.duration)
    (hwf : ∀ tk ∈ mkTasks args, a.lb tk.localId ≤ a.ub tk.localId)
    (hmem : ∀ x ∈ σ, x ∈ mkTasks args)
    (hsum : sumDur σ ≤ sumDur (mkTasks args)) :
    (newSchedSeqF (mkTasks args) a σ).isSome = true ∧
    oLT (some (sumDur (mkTasks args))) (lastCapF (Timeline.new (mkTasks args) a)) := by
  obtain ⟨tl, hnew, hch, hc, hs, he, hlen, htask, hbud, hest⟩ :=
    Timeline_new_spec args a hargs hdur hwf
  have hclen : tl.c.length = tl.t.length - 1 := by rw [hc]; exact zip_diff_length tl.t
  have hinv : PourInv tl.t tl.c tl.s (sumDur (mkTasks args)) := by
    rw [hc, hs]
    exact fresh_pourInv tl.t _ hch hlen hbud
  obtain ⟨tl', hseq⟩ := schedSeq_ok σ tl tl.t (sumDur (mkTasks args)) hinv
    (fun x hx => hdur x (hmem x hx))
    (fun x hx => by
      obtain ⟨j, hj1, hj2, _⟩ := htask x (hmem x hx)
      exact ⟨j, hj1, by omega⟩)
    hsum
  constructor
  · unfold newSchedSeqF
    rw [hnew]
    show (schedSeqF tl σ).isSome = true
    rw [hseq]
    rfl
  · unfold lastCapF
    rw [hnew]
    show oLT (some (sumDur (mkTasks args))) tl.c.getLast?
    have hgl : tl.c.getLast? = some (tl.c.getD (tl.c.length - 1) 0) := by
      rw [List.getLast?_eq_getElem?, ← List.get?_eq_getElem?,
        get?_of_lt tl.c (tl.c.length - 1) (by omega)]
    rw [hgl]
    have hval : tl.c.getD (tl.c.length - 1) 0 =
        tl.t.getD (tl.t.length - 1) 0 - tl.t.getD (tl.t.length - 2) 0 := by
      rw [hclen, hc, zip_diff_getD tl.t (tl.t.length - 1 - 1) (by omega)]
      have h1 : tl.t.length - 1 - 1 + 1 = tl.t.length - 1 := by omega
      have h2 : tl.t.length - 1 - 1 = tl.t.length - 2 := by omega
      rw [h1, h2]
    show sumDur (mkTasks args) < tl.c.getD (tl.c.length - 1) 0
    rw [hval]
    exact hbud

/-- C9: for every Timeline or RevTimeline built by new from a nonempty
well-formed task list, the appended sentinel slice has capacity strictly
greater than the sum of all durations, and under the precondition that each
task is scheduled at most once (any sub-permutation of the instance), every
schedule_task call terminates without any out-of-bounds slice access: the
whole schedule sequence succeeds on both structures. -/
theorem C9_schedule_terminates_in_bounds (args : List ArgTaskDisj) (a : Assignments) (σ : List TaskDisj)
    (hargs : args ≠ [])
    (hdur : ∀ tk ∈ mkTasks args, 1 ≤ tk.duration)
    (hwf : ∀ tk ∈ mkTasks args, a.lb tk.localId ≤ a.ub tk.localId)
    (hsub : σ.Subperm (mkTasks args)) :
    oLT (some (sumDur (mkTasks args))) (lastCapF (Timeline.new (mkTasks args) a)) ∧
    oLT (some (sumDur (mkTasks args))) (lastCapR (RevTimeline.new (mkTasks args) a)) ∧
    (newSchedSeqF (mkTasks args) a σ).isSome = true ∧
    (newSchedSeqR (mkTasks args) a σ).isSome = true := by
  have hmem : ∀ x ∈ σ, x ∈ mkTasks args := fun x hx => hsub.subset hx
  have hsum : sumDur σ ≤ sumDur (mkTasks args) := sumDur_subperm σ _ hsub hdur
  obtain ⟨hF, hcapF⟩ := newSchedSeqF_ok args a σ hargs hdur hwf hmem hsum
  have hwfneg : ∀ tk ∈ mkTasks args,
      (negAssign (mkTasks args) a).lb tk.localId ≤ (negAssign (mkTasks args) a).ub tk.localId := by
    intro tk htk
    simp only [negAssign]
    have := hwf tk htk
    omega
  obtain ⟨hF2, hcapF2⟩ :=
    newSchedSeqF_ok args (negAssign (mkTasks args) a) σ hargs hdur hwfneg hmem hsum
  have hmir := Timeline_new_mirror args a
  refine ⟨hcapF, ?_, hF, ?_⟩
  · cases h1 : Timeline.new (mkTasks args) (negAssign (mkTasks args) a) with
    | none =>
      rw [h1] at hcapF2
      simp [lastCapF, oLT] at hcapF2
    | some fw =>
      cases h2 : RevTimeline.new (mkTasks args) a with
      | none => rw [h1, h2] at hmir; exact absurd hmir (by simp [MirrorO])
      | some rv =>
        rw [h1, h2] at hmir
        unfold lastCapR
        unfold lastCapF at hcapF2
        rw [h1] at hcapF2
        obtain ⟨_, hcEq, _, _, _⟩ := hmir
        show oLT _ rv.c.getLast?
        rw [← hcEq]
        exact hcapF2
  · cases h1 : Timeline.new (mkTasks args) (negAssign (mkTasks args) a) with
    | none =>
      unfold newSchedSeqF at hF2
      rw [h1] at hF2
      simp at hF2
    | some fw =>
      cases h2 : RevTimeline.new (mkTasks args) a with
      | none => rw [h1, h2] at hmir; exact absurd hmir (by simp [MirrorO])
      | some rv =>
        rw [h1, h2] at hmir
        have hseqmir := schedSeq_mirror σ fw rv hmir
        unfold newSchedSeqR
        rw [h2]
        show (schedSeqR rv σ).isSome = true
        unfold newSchedSeqF at hF2
        rw [h1] at hF2
        cases h3 : schedSeqF fw σ with
        | none =>
          rw [show ((some fw).bind fun tl => schedSeqF tl σ) = schedSeqF fw σ from rfl, h3] at hF2
          simp at hF2
        | some fw' =>
          cases h4 : schedSeqR rv σ with
          | none => rw [h3, h4] at hseqmir; exact absurd hseqmir (by simp [MirrorO])
          | some rv' => rfl

theorem chain'_getD_mono (t : List Int) (hch : List.Chain' (· < ·) t) :
    ∀ j i, i < j → j < t.length → t.getD i 0 < t.getD j 0 := by
  intro j
  induction j with
  | zero => intro i hij _; omega
  | succ j ih =>
    intro i hij hjl
    rcases Nat.lt_or_ge i j with h | h
    · have h1 := ih i h (by omega)
      have h2 := chain'_getD t hch j (by omega)
      omega
    · have hiej : i = j := by omega
      subst hiej
      exact chain'_getD t hch i (by omega)

/-- C8: on a freshly constructed Timeline (well-formed instance: positive
durations, nonempty domains) on which no task has yet been scheduled, one
call to schedule_task on any task t of the instance makes
earliest_completion_time return exactly EST(t) + duration(t). -/
theorem C8_single_schedule_ect (args : List ArgTaskDisj) (a : Assignments) (task : TaskDisj)
    (htask : task ∈ mkTasks args)
    (hdur : ∀ tk ∈ mkTasks args, 1 ≤ tk.duration)
    (hwf : ∀ tk ∈ mkTasks args, a.lb tk.localId ≤ a.ub tk.localId) :
    newSchedEct (mkTasks args) a task = some (task.get_est a + task.duration) := by
  have hargs : args ≠ [] := by
    intro h
    subst h
    simp [mkTasks] at htask
  obtain ⟨tl, hnew, hch, hc, hs, he, hlen, hslices, hbud, hroom⟩ :=
    Timeline_new_spec args a hargs hdur hwf
  obtain ⟨j, hj, hjlen, hjval⟩ := hslices task htask
  have hclen : tl.c.length = tl.t.length - 1 := by
    rw [hc]
    exact zip_diff_length tl.t
  have hjc : j < tl.c.length := by omega
  unfold newSchedEct
  rw [hnew]
  show (tl.schedule_task task).bind Timeline.earliest_completion_time = _
  unfold Timeline.schedule_task
  rw [hj]
  dsimp only
  have hjroot : tl.s.parent.get? j = some j := by
    rw [hs]
    show (List.range tl.t.length).get? j = some j
    rw [List.get?_eq_getElem?, List.getElem?_range (by omega)]
  have hfind : tl.s.find j = some (j, tl.s) := find_root tl.s j hjroot
  rw [hfind]
  dsimp only
  have hd := hdur task htask
  obtain ⟨k', c', s', hloop, hk'c, hc'len, hval⟩ :=
    pour_fresh_value (task.duration.toNat + tl.c.length + 1) task.duration
      (task.get_est a) j tl.c tl.s tl.t
      (by rw [hs]; show (List.range tl.t.length).length = tl.t.length; simp)
      (by omega)
      (by
        intro j2 _ hj2
        rw [hs] at hj2 ⊢
        show (List.range tl.t.length).get? j2 = some j2
        have : j2 < tl.t.length := by
          simpa [UnionFind.new] using hj2
        rw [List.get?_eq_getElem?, List.getElem?_range this])
      hjc
      (by
        intro j2 _ hj2
        rw [hc]
        exact zip_diff_getD tl.t j2 (by omega))
      (by
        rw [hc, ← hjval]
        exact zip_diff_getD tl.t j (by omega))
      (by
        rw [← hjval]
        exact chain'_getD tl.t hch j (by omega))
      (fun i j2 _ hij hj2 => chain'_getD_mono tl.t hch j2 i hij hj2)
      (hroom task htask)
      (by omega)
      (by omega)
  rw [hloop]
  dsimp only
  show Timeline.earliest_completion_time ⟨tl.t, c', tl.m, max tl.e (k' : Int), s'⟩ =
    some (task.get_est a + task.duration)
  rw [he]
  have hmax : max (-1 : Int) (k' : Int) = (k' : Int) := by omega
  rw [hmax]
  unfold Timeline.earliest_completion_time
  dsimp only
  rw [if_neg (by omega : ¬((k' : Int) = -1))]
  rw [show ((k' : Int) + 1).toNat = k' + 1 from by omega,
    show ((k' : Int)).toNat = k' from by omega]
  rw [get?_of_lt tl.t (k' + 1) (by omega), get?_of_lt c' k' (by omega)]
  dsimp only
  rw [hval]

/-- Witness for C8 at scenario 3: scheduling task w (duration 4, EST 0)
on the fresh Timeline yields earliest completion time 4. -/
theorem C8_single_schedule_ect_witness :
    newSchedEct (mkTasks [⟨4⟩, ⟨9⟩, ⟨7⟩, ⟨6⟩]) scen3A ⟨4, 0⟩ = some 4 := by
  have h := C8_single_schedule_ect [⟨4⟩, ⟨9⟩, ⟨7⟩, ⟨6⟩] scen3A ⟨4, 0⟩
    (by decide) (by decide) (by decide)
  rw [h]
  decide

/-- Witness for C9 at scenario 3 with the full task list as the schedule
sequence. -/
theorem C9_schedule_terminates_in_bounds_witness :
    oLT (some (sumDur (mkTasks [⟨4⟩, ⟨9⟩, ⟨7⟩, ⟨6⟩])))
      (lastCapF (Timeline.new (mkTasks [⟨4⟩, ⟨9⟩, ⟨7⟩, ⟨6⟩]) scen3A)) ∧
    oLT (some (sumDur (mkTasks [⟨4⟩, ⟨9⟩, ⟨7⟩, ⟨6⟩])))
      (lastCapR (RevTimeline.new (mkTasks [⟨4⟩, ⟨9⟩, ⟨7⟩, ⟨6⟩]) scen3A)) ∧
    (newSchedSeqF (mkTasks [⟨4⟩, ⟨9⟩, ⟨7⟩, ⟨6⟩]) scen3A
      (mkTasks [⟨4⟩, ⟨9⟩, ⟨7⟩, ⟨6⟩])).isSome = true ∧
    (newSchedSeqR (mkTasks [⟨4⟩, ⟨9⟩, ⟨7⟩, ⟨6⟩]) scen3A
      (mkTasks [⟨4⟩, ⟨9⟩, ⟨7⟩, ⟨6⟩])).isSome = true :=
  C9_schedule_terminates_in_bounds [⟨4⟩, ⟨9⟩, ⟨7⟩, ⟨6⟩] scen3A
    (mkTasks [⟨4⟩, ⟨9⟩, ⟨7⟩, ⟨6⟩])
    (by simp) (by decide) (by decide) ((List.Perm.refl _).subperm)

end Pumpkin
